import Mathlib

/-
Verification of the adversarial-search core of the chess application:
the static evaluator and the depth-limited alpha-beta minimax of
src/workers/aiWorker.ts, the request-correlation facade of src/utils/ai.ts,
and the stale-response suppression of src/stores/chess.ts.

The chess rules engine (chess.js) is an external collaborator: it is
modelled as an abstract interface (GameRules) exposing exactly the
operations the search consumes (turn, verbose move list, move application,
undo, terminal predicates, board enumeration).  JavaScript numbers hold
the search scores; the search only ever compares integers and the two
infinities, so scores are embedded as the extended integers XInt.
-/

namespace ChessAI

/-- Piece colours, chess.js encoding 'w' / 'b'. -/
inductive Color where
  | w : Color
  | b : Color
deriving DecidableEq, Repr

/-- Piece kinds, chess.js encoding p / n / b / r / q / k. -/
inductive PieceType where
  | p : PieceType
  | n : PieceType
  | b : PieceType
  | r : PieceType
  | q : PieceType
  | k : PieceType
deriving DecidableEq, Repr

/-- One board square's occupant as returned by chess.js game.board(). -/
structure BoardPiece where
  color : Color
  ptype : PieceType
deriving DecidableEq, Repr

/-- A verbose move record as produced by game.moves with the verbose flag:
the search only reads its origin, destination and optional promotion. -/
structure ChessMove where
  fromSq : String
  toSq : String
  promotion : Option PieceType
deriving DecidableEq, Repr

/-- Extended integers: JavaScript number values reachable by the search
scores, namely integers together with -Infinity and +Infinity. -/
inductive XInt where
  | negInf : XInt
  | fin : Int → XInt
  | posInf : XInt
deriving DecidableEq, Repr

/-- Order on XInt matching JavaScript numeric comparison on these values. -/
def XInt.le : XInt → XInt → Prop
  | negInf, _ => True
  | fin _, negInf => False
  | fin a, fin b => a ≤ b
  | fin _, posInf => True
  | posInf, posInf => True
  | posInf, _ => False

/-- Decision procedure for XInt.le. -/
def XInt.decLe : (a b : XInt) → Decidable (XInt.le a b)
  | negInf, _ => isTrue trivial
  | fin _, negInf => isFalse (fun h => h)
  | fin a, fin b => inferInstanceAs (Decidable (a ≤ b))
  | fin _, posInf => isTrue trivial
  | posInf, negInf => isFalse (fun h => h)
  | posInf, fin _ => isFalse (fun h => h)
  | posInf, posInf => isTrue trivial

instance : LinearOrder XInt where
  le := XInt.le
  le_refl a := by cases a <;> simp [XInt.le]
  le_trans a b c := by
    cases a <;> cases b <;> cases c <;> simp [XInt.le] <;> omega
  le_antisymm a b := by
    cases a <;> cases b <;> simp [XInt.le] <;> omega
  le_total a b := by
    cases a <;> cases b <;> simp [XInt.le] <;> omega
  decidableLE := XInt.decLe

/-- Interface to the external rules engine (chess.js) consumed by the
search: side to move, verbose legal-move list, move application by
origin/destination/promotion, undo of the last applied move, the terminal
predicates and the 8x8 board enumeration used by the evaluator. -/
structure GameRules (σ : Type) where
  turn : σ → Color
  moves : σ → List ChessMove
  applyMove : σ → String → String → PieceType → σ
  undo : σ → σ
  isGameOver : σ → Bool
  isCheckmate : σ → Bool
  isDraw : σ → Bool
  board : σ → List (List (Option BoardPiece))

/-- The rules engine restores the exact pre-move state on undo
(castling and en-passant rights included), as the spec requires of the
external collaborator. -/
def PerfectUndo {σ : Type} (R : GameRules σ) : Prop :=
  ∀ (g : σ) (f t : String) (p : PieceType), R.undo (R.applyMove g f t p) = g

/-- PIECE_VALUES table of aiWorker.ts. -/
def PIECE_VALUES : PieceType → Int
  | PieceType.p => 100
  | PieceType.n => 320
  | PieceType.b => 330
  | PieceType.r => 500
  | PieceType.q => 900
  | PieceType.k => 0

/-- CHECKMATE_SCORE constant of aiWorker.ts. -/
def CHECKMATE_SCORE : Int := 10000

/-- evaluateBoard of aiWorker.ts: signed material fold over game.board()
plus 10 per legal move of the side to move, negated for a black engine. -/
def evaluateBoard {σ : Type} (R : GameRules σ) (game : σ) (aiColor : Color) : Int :=
  let score := (R.board game).foldl
    (fun acc row => row.foldl
      (fun acc piece =>
        match piece with
        | none => acc
        | some piece =>
          let baseValue := PIECE_VALUES piece.ptype
          acc + (if piece.color = Color.w then baseValue else -baseValue))
      acc)
    0
  let mobility : Int := ((R.moves game).length : Int) * 10
  let score := score + (if R.turn game = Color.w then mobility else -mobility)
  if aiColor = Color.w then score else -score

/-- The move actually handed to game.move inside the search loop:
origin, destination, and the candidate's promotion defaulting to queen. -/
def applyChild {σ : Type} (R : GameRules σ) (g : σ) (m : ChessMove) : σ :=
  R.applyMove g m.fromSq m.toSq (m.promotion.getD PieceType.q)

/-- Terminal resolution shared by both base-case checks of minimax:
checkmate sentinel (signed by whether the side to move is the engine),
draw zero, otherwise static evaluation. -/
def minimaxBase {σ : Type} (R : GameRules σ) (aiColor : Color) (game : σ) :
    XInt × Option ChessMove :=
  if R.isCheckmate game then
    (XInt.fin (if R.turn game = aiColor then -CHECKMATE_SCORE else CHECKMATE_SCORE), none)
  else if R.isDraw game then
    (XInt.fin 0, none)
  else
    (XInt.fin (evaluateBoard R game aiColor), none)

/-- The maximizing for-loop of minimax, threading the mutable game object:
apply the candidate, recurse (rec is minimax at depth-1), undo, take the
candidate on strict improvement only, raise alpha, break once beta <= alpha. -/
def maxLoop {σ : Type} (R : GameRules σ)
    (rec : σ → XInt → XInt → XInt × Option ChessMove × σ) :
    σ → List ChessMove → XInt → XInt → XInt → Option ChessMove →
    XInt × Option ChessMove × σ
  | g, [], _, _, bestScore, bestMove => (bestScore, bestMove, g)
  | g, move :: rest, alpha, beta, bestScore, bestMove =>
    let afterMove := applyChild R g move
    let result := rec afterMove alpha beta
    let afterUndo := R.undo result.2.2
    let best := if bestScore < result.1 then (result.1, some move) else (bestScore, bestMove)
    let alpha := max alpha best.1
    if beta ≤ alpha then (best.1, best.2, afterUndo)
    else maxLoop R rec afterUndo rest alpha beta best.1 best.2

/-- The minimizing for-loop of minimax: dual of maxLoop, lowering beta. -/
def minLoop {σ : Type} (R : GameRules σ)
    (rec : σ → XInt → XInt → XInt × Option ChessMove × σ) :
    σ → List ChessMove → XInt → XInt → XInt → Option ChessMove →
    XInt × Option ChessMove × σ
  | g, [], _, _, bestScore, bestMove => (bestScore, bestMove, g)
  | g, move :: rest, alpha, beta, bestScore, bestMove =>
    let afterMove := applyChild R g move
    let result := rec afterMove alpha beta
    let afterUndo := R.undo result.2.2
    let best := if result.1 < bestScore then (result.1, some move) else (bestScore, bestMove)
    let beta := min beta best.1
    if beta ≤ alpha then (best.1, best.2, afterUndo)
    else minLoop R rec afterUndo rest alpha beta best.1 best.2

/-- minimax of aiWorker.ts.  The returned triple is (score, move, game):
the last component is the state of the shared mutable game object when the
call returns.  Depth is a natural number; the source guard
depth === 0 || game.isGameOver() splits into the 0 pattern and the
isGameOver test of the successor pattern. -/
def minimax {σ : Type} (R : GameRules σ) (aiColor : Color) :
    Nat → σ → XInt → XInt → XInt × Option ChessMove × σ
  | 0, game, _, _ =>
    let b := minimaxBase R aiColor game
    (b.1, b.2, game)
  | depth + 1, game, alpha, beta =>
    if R.isGameOver game then
      let b := minimaxBase R aiColor game
      (b.1, b.2, game)
    else
      let moves := R.moves game
      if moves.isEmpty then
        if R.isCheckmate game then
          (XInt.fin (if R.turn game = aiColor then -CHECKMATE_SCORE else CHECKMATE_SCORE),
           none, game)
        else (XInt.fin 0, none, game)
      else if R.turn game = aiColor then
        maxLoop R (fun g a b => minimax R aiColor depth g a b)
          game moves alpha beta XInt.negInf none
      else
        minLoop R (fun g a b => minimax R aiColor depth g a b)
          game moves alpha beta XInt.posInf none

/-- Pure-score image of maxLoop: identical control flow and updates, but
children are consulted for their score only and the game state is not
threaded (justified for a rules engine with PerfectUndo by minimax_eq_pure). -/
def maxLoopP {σ : Type} (R : GameRules σ) (rec : σ → XInt → XInt → XInt) :
    σ → List ChessMove → XInt → XInt → XInt → Option ChessMove →
    XInt × Option ChessMove
  | _, [], _, _, bestScore, bestMove => (bestScore, bestMove)
  | g, move :: rest, alpha, beta, bestScore, bestMove =>
    let r := rec (applyChild R g move) alpha beta
    let best := if bestScore < r then (r, some move) else (bestScore, bestMove)
    let alpha := max alpha best.1
    if beta ≤ alpha then best
    else maxLoopP R rec g rest alpha beta best.1 best.2

/-- Pure-score image of minLoop. -/
def minLoopP {σ : Type} (R : GameRules σ) (rec : σ → XInt → XInt → XInt) :
    σ → List ChessMove → XInt → XInt → XInt → Option ChessMove →
    XInt × Option ChessMove
  | _, [], _, _, bestScore, bestMove => (bestScore, bestMove)
  | g, move :: rest, alpha, beta, bestScore, bestMove =>
    let r := rec (applyChild R g move) alpha beta
    let best := if r < bestScore then (r, some move) else (bestScore, bestMove)
    let beta := min beta best.1
    if beta ≤ alpha then best
    else minLoopP R rec g rest alpha beta best.1 best.2

/-- minimax without the state threading: same scores and moves as minimax
whenever the rules engine undoes perfectly (theorem minimax_eq_pure). -/
def minimaxP {σ : Type} (R : GameRules σ) (aiColor : Color) :
    Nat → σ → XInt → XInt → XInt × Option ChessMove
  | 0, game, _, _ => minimaxBase R aiColor game
  | depth + 1, game, alpha, beta =>
    if R.isGameOver game then minimaxBase R aiColor game
    else
      let moves := R.moves game
      if moves.isEmpty then
        if R.isCheckmate game then
          (XInt.fin (if R.turn game = aiColor then -CHECKMATE_SCORE else CHECKMATE_SCORE),
           none)
        else (XInt.fin 0, none)
      else if R.turn game = aiColor then
        maxLoopP R (fun g a b => (minimaxP R aiColor depth g a b).1)
          game moves alpha beta XInt.negInf none
      else
        minLoopP R (fun g a b => (minimaxP R aiColor depth g a b).1)
          game moves alpha beta XInt.posInf none

/-- Maximizing fold of the exhaustive reference search: same strict
tie-break and iteration order, no alpha-beta bookkeeping and no break. -/
def maxRefLoop {σ : Type} (R : GameRules σ) (rec : σ → XInt) :
    σ → List ChessMove → XInt → Option ChessMove → XInt × Option ChessMove
  | _, [], bestScore, bestMove => (bestScore, bestMove)
  | g, move :: rest, bestScore, bestMove =>
    let r := rec (applyChild R g move)
    if bestScore < r then maxRefLoop R rec g rest r (some move)
    else maxRefLoop R rec g rest bestScore bestMove

/-- Minimizing fold of the exhaustive reference search. -/
def minRefLoop {σ : Type} (R : GameRules σ) (rec : σ → XInt) :
    σ → List ChessMove → XInt → Option ChessMove → XInt × Option ChessMove
  | _, [], bestScore, bestMove => (bestScore, bestMove)
  | g, move :: rest, bestScore, bestMove =>
    let r := rec (applyChild R g move)
    if r < bestScore then minRefLoop R rec g rest r (some move)
    else minRefLoop R rec g rest bestScore bestMove

/-- Modelled from the spec (section 8, property 4): the exhaustive
non-pruning minimax reference — same base cases, same strict tie-break,
same move-generation order as minimax, but every child of every node is
explored.  The pruning search is compared against this definition. -/
def minimaxRef {σ : Type} (R : GameRules σ) (aiColor : Color) :
    Nat → σ → XInt × Option ChessMove
  | 0, game => minimaxBase R aiColor game
  | depth + 1, game =>
    if R.isGameOver game then minimaxBase R aiColor game
    else
      let moves := R.moves game
      if moves.isEmpty then
        if R.isCheckmate game then
          (XInt.fin (if R.turn game = aiColor then -CHECKMATE_SCORE else CHECKMATE_SCORE),
           none)
        else (XInt.fin 0, none)
      else if R.turn game = aiColor then
        maxRefLoop R (fun g => (minimaxRef R aiColor depth g).1)
          game moves XInt.negInf none
      else
        minRefLoop R (fun g => (minimaxRef R aiColor depth g).1)
          game moves XInt.posInf none

/-- Instrumentation of the maximizing loop: the candidate moves actually
iterated, paired with the recursive score each one received, with the
alpha updates and the pruning cut applied exactly as in the loop. -/
def maxTrace {σ : Type} (R : GameRules σ) (rec : σ → XInt → XInt → XInt) :
    σ → List ChessMove → XInt → XInt → XInt → List (ChessMove × XInt)
  | _, [], _, _, _ => []
  | g, move :: rest, alpha, beta, bestScore =>
    let r := rec (applyChild R g move) alpha beta
    let best := if bestScore < r then r else bestScore
    let alpha := max alpha best
    (move, r) :: (if beta ≤ alpha then [] else maxTrace R rec g rest alpha beta best)

/-- Instrumentation of the minimizing loop. -/
def minTrace {σ : Type} (R : GameRules σ) (rec : σ → XInt → XInt → XInt) :
    σ → List ChessMove → XInt → XInt → XInt → List (ChessMove × XInt)
  | _, [], _, _, _ => []
  | g, move :: rest, alpha, beta, bestScore =>
    let r := rec (applyChild R g move) alpha beta
    let best := if r < bestScore then r else bestScore
    let beta := min beta best
    (move, r) :: (if beta ≤ alpha then [] else minTrace R rec g rest alpha beta best)

/-- The per-candidate scores a recursive-case minimax node computes, in
iteration order: the trace of whichever loop the node runs. -/
def nodeTrace {σ : Type} (R : GameRules σ) (aiColor : Color) (depth : Nat)
    (g : σ) (alpha beta : XInt) : List (ChessMove × XInt) :=
  if R.turn g = aiColor then
    maxTrace R (fun g a b => (minimaxP R aiColor depth g a b).1)
      g (R.moves g) alpha beta XInt.negInf
  else
    minTrace R (fun g a b => (minimaxP R aiColor depth g a b).1)
      g (R.moves g) alpha beta XInt.posInf

/-- First move of an iteration trace whose recorded score equals the
target, if any. -/
def firstAttains (target : XInt) : List (ChessMove × XInt) → Option ChessMove
  | [] => none
  | (m, r) :: rest => if r = target then some m else firstAttains target rest

/-- Spec-side statement of the evaluator (section 4.1): material sum with
standard weights, white added and black subtracted, plus ten units per
legal move of the side to move signed by that side, the total negated
exactly for a black perspective. -/
def evaluateSpec {σ : Type} (R : GameRules σ) (g : σ) (perspective : Color) : Int :=
  let material :=
    ((R.board g).map (fun row =>
      (row.map (fun cell =>
        match cell with
        | none => (0 : Int)
        | some piece =>
          if piece.color = Color.w then PIECE_VALUES piece.ptype
          else -(PIECE_VALUES piece.ptype))).sum)).sum
  let mobility : Int := 10 * (R.moves g).length
  let total := material + (if R.turn g = Color.w then mobility else -mobility)
  if perspective = Color.b then -total else total

/-- A promise settlement observable by a computeBestMove caller.  The
token identifies the Promise object of one computeBestMove invocation. -/
inductive AiSettle where
  | resolve (token : Nat) (mv : Option ChessMove)
  | reject (token : Nat)
deriving DecidableEq, Repr

/-- The promise token an AiSettle settles. -/
def AiSettle.token : AiSettle → Nat
  | resolve t _ => t
  | reject t => t

/-- Module-level state of src/utils/ai.ts: whether aiWorker is non-null,
the nextRequestId counter, and the pendingRequests map as an association
list from requestId to promise token, in insertion order.  nextToken is
ghost instrumentation numbering the Promise objects consecutively so that
per-call settlement can be observed. -/
structure AiState where
  workerAlive : Bool
  nextRequestId : Nat
  pending : List (Nat × Nat)
  nextToken : Nat
deriving DecidableEq, Repr

/-- Module initialisation of ai.ts: no worker, counter 1, empty table. -/
def initialAiState : AiState := ⟨false, 1, [], 0⟩

/-- pendingRequests.get: the token of the entry keyed by id, if present. -/
def lookupPending : List (Nat × Nat) → Nat → Option Nat
  | [], _ => none
  | e :: rest, id => if e.1 = id then some e.2 else lookupPending rest id

/-- pendingRequests.delete: remove the entry keyed by id, if present. -/
def removePending : List (Nat × Nat) → Nat → List (Nat × Nat)
  | [], _ => []
  | e :: rest, id => if e.1 = id then rest else e :: removePending rest id

/-- terminateAiWorker of ai.ts: no-op without a worker; otherwise tear the
worker down, reject every pending entry, clear the table and reset the
request counter to 1. -/
def terminateAiWorker (st : AiState) : AiState × List AiSettle :=
  if st.workerAlive then
    ({ st with workerAlive := false, pending := [], nextRequestId := 1 },
     st.pending.map (fun e => AiSettle.reject e.2))
  else (st, [])

/-- handleWorkerMessage of ai.ts: look the response id up in the pending
table; absent means silently return, present means delete the entry and
resolve its promise with the received move. -/
def handleWorkerMessage (st : AiState) (id : Nat) (mv : Option ChessMove) :
    AiState × List AiSettle :=
  match lookupPending st.pending id with
  | none => (st, [])
  | some token =>
    ({ st with pending := removePending st.pending id }, [AiSettle.resolve token mv])

/-- handleWorkerError of ai.ts: reject every pending entry, clear the
table, then run terminateAiWorker (whose own reject pass then sees an
empty table). -/
def handleWorkerError (st : AiState) : AiState × List AiSettle :=
  let rejected := st.pending.map (fun e => AiSettle.reject e.2)
  let cleared : AiState := { st with pending := [] }
  let t := terminateAiWorker cleared
  (t.1, rejected ++ t.2)

/-- ensureWorker of ai.ts: lazily (re)create the worker. -/
def ensureWorker (st : AiState) : AiState := { st with workerAlive := true }

/-- computeBestMove of ai.ts: ensure the worker, allocate the next request
id, register the new promise under it, and post the request; if posting
throws, remove the entry again and reject the fresh promise. -/
def computeBestMove (st : AiState) (sendFails : Bool) : AiState × List AiSettle :=
  let st1 := ensureWorker st
  let requestId := st1.nextRequestId
  let st2 := { st1 with nextRequestId := requestId + 1 }
  let token := st2.nextToken
  let st3 := { st2 with pending := st2.pending ++ [(requestId, token)],
                        nextToken := token + 1 }
  if sendFails then
    ({ st3 with pending := removePending st3.pending requestId },
     [AiSettle.reject token])
  else (st3, [])

/-- Events the ai.ts module reacts to: a computeBestMove call (with
whether postMessage throws), a worker response message, a worker
error/messageerror, and an explicit terminateAiWorker call. -/
inductive AiEvent where
  | compute (sendFails : Bool)
  | response (id : Nat) (mv : Option ChessMove)
  | workerFault
  | terminate
deriving DecidableEq, Repr

/-- One event-handler dispatch of ai.ts. -/
def stepAi (st : AiState) : AiEvent → AiState × List AiSettle
  | AiEvent.compute sf => computeBestMove st sf
  | AiEvent.response id mv => handleWorkerMessage st id mv
  | AiEvent.workerFault => handleWorkerError st
  | AiEvent.terminate => terminateAiWorker st

/-- Run a sequence of events, concatenating the settlements they emit. -/
def runAi : AiState → List AiEvent → AiState × List AiSettle
  | st, [] => (st, [])
  | st, e :: es =>
    let r := stepAi st e
    let rest := runAi r.1 es
    (rest.1, r.2 ++ rest.2)

/-- The request ids an event allocates: a compute call takes the current
counter value, every other event allocates none. -/
def allocOf (st : AiState) : AiEvent → List Nat
  | AiEvent.compute _ => [st.nextRequestId]
  | _ => []

/-- The request ids allocated along a run, in order. -/
def runAllocLog : AiState → List AiEvent → List Nat
  | _, [] => []
  | st, e :: es => allocOf st e ++ runAllocLog (stepAi st e).1 es

/-- Tokens settled by a settlement list, in order. -/
def settledTokens (l : List AiSettle) : List Nat := l.map AiSettle.token

/-- Promise tokens of the pending table, in order. -/
def pendingTokens (st : AiState) : List Nat := st.pending.map (fun e => e.2)

/-- Request ids of the pending table, in order. -/
def pendingIds (st : AiState) : List Nat := st.pending.map (fun e => e.1)

/-- Every pending request id is below the allocation counter. -/
def IdBound (st : AiState) : Prop := ∀ i ∈ pendingIds st, i < st.nextRequestId

/-- Facade invariant tying a state to the tokens already settled: no token
is both pending and settled or occurs twice in either place, every token
seen so far is below the ghost counter, and pending ids are below the
request counter. -/
def AiInv (st : AiState) (settled : List Nat) : Prop :=
  (pendingTokens st ++ settled).Nodup ∧
  (∀ t ∈ pendingTokens st ++ settled, t < st.nextToken) ∧
  IdBound st

/-- A list of naturals is strictly increasing left to right. -/
def StrictlyIncreasing (l : List Nat) : Prop := List.Chain' (fun a b => a < b) l

/-- The slice of the rules-engine interface the store needs beyond the
search: fallible move application (game.move returns null on rejection)
and the board enumeration used by updateBoard. -/
structure StoreEngine (σ : Type) where
  tryMove : σ → String → String → PieceType → Option σ
  boardOf : σ → List (List (Option BoardPiece))

/-- The caller-visible refs of the chess store touched by requestAiMove:
the cancellation counter aiTaskId, the isAiThinking flag, the game object,
lastMove and the board ref. -/
structure StoreState (σ : Type) where
  aiTaskId : Nat
  isAiThinking : Bool
  game : σ
  lastMove : Option (String × String)
  board : List (List (Option BoardPiece))
deriving Repr

/-- cancelAiComputation of chess.ts: advance the task counter and drop
the thinking flag. -/
def cancelAiComputation {σ : Type} (st : StoreState σ) : StoreState σ :=
  { st with aiTaskId := st.aiTaskId + 1, isAiThinking := false }

/-- The synchronous prefix of requestAiMove: capture currentTask as the
pre-incremented counter and raise the thinking flag; returns the new
state and the captured task id. -/
def requestAiMoveStart {σ : Type} (st : StoreState σ) : StoreState σ × Nat :=
  ({ st with aiTaskId := st.aiTaskId + 1, isAiThinking := true }, st.aiTaskId + 1)

/-- The continuation of requestAiMove after the computeBestMove promise
settles: a stale task (counter moved on) returns without touching any ref,
also in the catch and finally clauses; a current task applies the move
(promotion defaulting to queen), records lastMove, refreshes the board
and clears the thinking flag. -/
def requestAiMoveComplete {σ : Type} (E : StoreEngine σ) (st : StoreState σ)
    (currentTask : Nat) (result : Except String (Option ChessMove)) : StoreState σ :=
  match result with
  | Except.ok bestMove =>
    if st.aiTaskId ≠ currentTask then st
    else
      match bestMove with
      | none => { st with isAiThinking := false }
      | some mv =>
        match E.tryMove st.game mv.fromSq mv.toSq (mv.promotion.getD PieceType.q) with
        | none => { st with isAiThinking := false }
        | some g =>
          { st with game := g, lastMove := some (mv.fromSq, mv.toSq),
                    board := E.boardOf g, isAiThinking := false }
  | Except.error _ =>
    if st.aiTaskId = currentTask then { st with isAiThinking := false } else st

/-- Store operations that can interleave between a requestAiMove start and
the settlement of its promise. -/
inductive StoreOp where
  | cancel
  | startOther
  | completeOther (task : Nat) (result : Except String (Option ChessMove))

/-- Apply one interleaved store operation. -/
def applyStoreOp {σ : Type} (E : StoreEngine σ) (st : StoreState σ) :
    StoreOp → StoreState σ
  | StoreOp.cancel => cancelAiComputation st
  | StoreOp.startOther => (requestAiMoveStart st).1
  | StoreOp.completeOther task r => requestAiMoveComplete E st task r

/-- Apply a sequence of interleaved store operations. -/
def applyStoreOps {σ : Type} (E : StoreEngine σ) :
    StoreState σ → List StoreOp → StoreState σ
  | st, [] => st
  | st, op :: ops => applyStoreOps E (applyStoreOp E st op) ops

/-- Whether an interleaved operation advances the cancellation counter. -/
def advancesTask : StoreOp → Bool
  | StoreOp.cancel => true
  | StoreOp.startOther => true
  | StoreOp.completeOther _ _ => false

/-- Soundness relation between a windowed child evaluator and its
exhaustive reference value: a result at or below alpha upper-bounds the
reference, a result at or beyond beta lower-bounds it, and a result
strictly inside the window equals it. -/
def ChildBound {σ : Type} (rec : σ → XInt → XInt → XInt) (nref : σ → XInt) : Prop :=
  ∀ (g : σ) (alpha beta : XInt), alpha < beta →
    (rec g alpha beta ≤ alpha → nref g ≤ rec g alpha beta) ∧
    (beta ≤ rec g alpha beta → rec g alpha beta ≤ nref g) ∧
    (alpha < rec g alpha beta → rec g alpha beta < beta → rec g alpha beta = nref g)

/-- Soundness relation between the pruning search and the exhaustive
reference search at a given depth, over every position and every
well-formed window: bounds outside the window, exact score and identical
move strictly inside it. -/
def ABMatch {σ : Type} (R : GameRules σ) (aiColor : Color) (depth : Nat) : Prop :=
  ∀ (g : σ) (alpha beta : XInt), alpha < beta →
    ((minimaxP R aiColor depth g alpha beta).1 ≤ alpha →
      (minimaxRef R aiColor depth g).1 ≤ (minimaxP R aiColor depth g alpha beta).1) ∧
    (beta ≤ (minimaxP R aiColor depth g alpha beta).1 →
      (minimaxP R aiColor depth g alpha beta).1 ≤ (minimaxRef R aiColor depth g).1) ∧
    (alpha < (minimaxP R aiColor depth g alpha beta).1 →
      (minimaxP R aiColor depth g alpha beta).1 < beta →
      minimaxP R aiColor depth g alpha beta = minimaxRef R aiColor depth g)

/-- Concrete move record used by witnesses. -/
def mvA : ChessMove := ⟨"e2", "e4", none⟩

/-- A tiny concrete rules engine for witnesses: the state is the stack of
applied moves, undo pops the stack, the root offers two moves and every
deeper position is over.  Undo is perfect by construction. -/
def demoRules : GameRules (List (String × String × PieceType)) where
  turn := fun g => if g.length % 2 = 0 then Color.w else Color.b
  moves := fun g =>
    if g.length = 0 then [⟨"a2", "a3", none⟩, ⟨"b2", "b3", none⟩] else []
  applyMove := fun g f t p => (f, t, p) :: g
  undo := fun g => g.tail
  isGameOver := fun g => decide (1 ≤ g.length)
  isCheckmate := fun _ => false
  isDraw := fun _ => false
  board := fun g =>
    if g.length = 0 then [] else [[some ⟨Color.w, PieceType.p⟩]]

/-- A concrete checkmated position for witnesses: black to move, no legal
replies, checkmate flagged. -/
def mateRules : GameRules Unit where
  turn := fun _ => Color.b
  moves := fun _ => []
  applyMove := fun g _ _ _ => g
  undo := fun g => g
  isGameOver := fun _ => true
  isCheckmate := fun _ => true
  isDraw := fun _ => false
  board := fun _ => []

/-- A trivial store engine over a unit game for witnesses. -/
def unitEngine : StoreEngine Unit where
  tryMove := fun _ _ _ _ => none
  boardOf := fun _ => []

theorem XInt.negInf_le (a : XInt) : XInt.negInf ≤ a := by
  cases a <;> exact trivial

theorem XInt.le_posInf (a : XInt) : a ≤ XInt.posInf := by
  cases a <;> exact trivial

theorem XInt.not_lt_negInf (a : XInt) : ¬ a < XInt.negInf :=
  not_lt.mpr (XInt.negInf_le a)

theorem XInt.not_posInf_lt (a : XInt) : ¬ XInt.posInf < a :=
  not_lt.mpr (XInt.le_posInf a)

theorem XInt.negInf_lt_fin (n : Int) : XInt.negInf < XInt.fin n :=
  lt_of_le_of_ne (XInt.negInf_le _) (fun h => XInt.noConfusion h)

theorem XInt.fin_lt_posInf (n : Int) : XInt.fin n < XInt.posInf :=
  lt_of_le_of_ne (XInt.le_posInf _) (fun h => XInt.noConfusion h)

theorem maxLoop_eq_pure {σ : Type} (R : GameRules σ) (hu : PerfectUndo R)
    (rec : σ → XInt → XInt → XInt × Option ChessMove × σ)
    (rec1 : σ → XInt → XInt → XInt)
    (hrec : ∀ g a b, (rec g a b).1 = rec1 g a b ∧ (rec g a b).2.2 = g)
    (ms : List ChessMove) (g : σ) (alpha beta s : XInt) (mv : Option ChessMove) :
    maxLoop R rec g ms alpha beta s mv
      = ((maxLoopP R rec1 g ms alpha beta s mv).1,
         (maxLoopP R rec1 g ms alpha beta s mv).2, g) := by
  induction ms generalizing alpha beta s mv with
  | nil => rfl
  | cons m rest ih =>
    have h1 := (hrec (applyChild R g m) alpha beta).1
    have h2 := (hrec (applyChild R g m) alpha beta).2
    have hug : R.undo (applyChild R g m) = g :=
      hu g m.fromSq m.toSq (m.promotion.getD PieceType.q)
    simp only [maxLoop, maxLoopP, h1, h2, hug]
    by_cases hb : beta ≤ max alpha (if s < rec1 (applyChild R g m) alpha beta
        then (rec1 (applyChild R g m) alpha beta, some m) else (s, mv)).1
    · simp only [if_pos hb]
    · simp only [if_neg hb, ih]

theorem minLoop_eq_pure {σ : Type} (R : GameRules σ) (hu : PerfectUndo R)
    (rec : σ → XInt → XInt → XInt × Option ChessMove × σ)
    (rec1 : σ → XInt → XInt → XInt)
    (hrec : ∀ g a b, (rec g a b).1 = rec1 g a b ∧ (rec g a b).2.2 = g)
    (ms : List ChessMove) (g : σ) (alpha beta s : XInt) (mv : Option ChessMove) :
    minLoop R rec g ms alpha beta s mv
      = ((minLoopP R rec1 g ms alpha beta s mv).1,
         (minLoopP R rec1 g ms alpha beta s mv).2, g) := by
  induction ms generalizing alpha beta s mv with
  | nil => rfl
  | cons m rest ih =>
    have h1 := (hrec (applyChild R g m) alpha beta).1
    have h2 := (hrec (applyChild R g m) alpha beta).2
    have hug : R.undo (applyChild R g m) = g :=
      hu g m.fromSq m.toSq (m.promotion.getD PieceType.q)
    simp only [minLoop, minLoopP, h1, h2, hug]
    by_cases hb : min beta (if rec1 (applyChild R g m) alpha beta < s
        then (rec1 (applyChild R g m) alpha beta, some m) else (s, mv)).1 ≤ alpha
    · simp only [if_pos hb]
    · simp only [if_neg hb, ih]

theorem minimax_eq_pure {σ : Type} (R : GameRules σ) (aiColor : Color)
    (hu : PerfectUndo R) (depth : Nat) (g : σ) (alpha beta : XInt) :
    minimax R aiColor depth g alpha beta
      = ((minimaxP R aiColor depth g alpha beta).1,
         (minimaxP R aiColor depth g alpha beta).2, g) := by
  induction depth generalizing g alpha beta with
  | zero => rfl
  | succ d ih =>
    simp only [minimax, minimaxP]
    by_cases hg : R.isGameOver g
    · simp only [hg, if_true]
    · simp only [hg, Bool.false_eq_true, if_false]
      by_cases hm : (R.moves g).isEmpty
      · simp only [hm, if_true]
        by_cases hc : R.isCheckmate g
        · simp only [hc, if_true]
        · simp only [hc, Bool.false_eq_true, if_false]
      · simp only [hm, Bool.false_eq_true, if_false]
        by_cases ht : R.turn g = aiColor
        · simp only [ht, if_true]
          exact maxLoop_eq_pure R hu _ _ (fun g a b => by rw [ih g a b]; exact ⟨rfl, rfl⟩)
            (R.moves g) g alpha beta XInt.negInf none
        · simp only [ht, if_false]
          exact minLoop_eq_pure R hu _ _ (fun g a b => by rw [ih g a b]; exact ⟨rfl, rfl⟩)
            (R.moves g) g alpha beta XInt.posInf none

/-- C5: for every position, depth, alpha, beta and engine side, the game
state after a minimax call is identical to the state before it — every
move applied in the loop is undone before the loop body ends, including on
the pruning break — provided the rules engine undoes perfectly, so the
caller never observes any mutation of the position it handed in. -/
theorem c5_minimax_restores_state {σ : Type} (R : GameRules σ) (aiColor : Color)
    (hu : PerfectUndo R) (depth : Nat) (g : σ) (alpha beta : XInt) :
    (minimax R aiColor depth g alpha beta).2.2 = g := by
  rw [minimax_eq_pure R aiColor hu]

/-- Witness for C5 at the concrete demo engine: perfect undo holds and a
depth-1 search from the empty stack hands the empty stack back. -/
theorem c5_witness :
    PerfectUndo demoRules ∧
      (minimax demoRules Color.w 1 [] XInt.negInf XInt.posInf).2.2 = [] :=
  ⟨fun _ _ _ _ => rfl,
   c5_minimax_restores_state demoRules Color.w (fun _ _ _ _ => rfl) 1 []
     XInt.negInf XInt.posInf⟩

/-- C2: in a checkmated position (checkmate flagged, no legal replies),
minimax at every depth and window returns move = null and the sentinel
score, -10000 when the side to move is the engine side and +10000
otherwise. -/
theorem c2_checkmate_sentinel {σ : Type} (R : GameRules σ) (aiColor : Color)
    (g : σ) (hc : R.isCheckmate g = true) (hm : R.moves g = [])
    (depth : Nat) (alpha beta : XInt) :
    (minimax R aiColor depth g alpha beta).1
        = XInt.fin (if R.turn g = aiColor then -CHECKMATE_SCORE else CHECKMATE_SCORE)
      ∧ (minimax R aiColor depth g alpha beta).2.1 = none := by
  cases depth with
  | zero => simp [minimax, minimaxBase, hc]
  | succ d =>
    by_cases hg : R.isGameOver g
    · simp [minimax, minimaxBase, hg, hc]
    · simp [minimax, hg, hm, hc]

/-- Witness for C2 at the concrete checkmated position: black is mated
and the white engine receives +10000 with no move. -/
theorem c2_witness :
    mateRules.isCheckmate () = true ∧ mateRules.moves () = [] ∧
      (minimax mateRules Color.w 3 () XInt.negInf XInt.posInf).1 = XInt.fin 10000 ∧
      (minimax mateRules Color.w 3 () XInt.negInf XInt.posInf).2.1 = none := by
  have h := c2_checkmate_sentinel mateRules Color.w () rfl rfl 3 XInt.negInf XInt.posInf
  exact ⟨rfl, rfl, by simpa using h.1, h.2⟩

theorem minimaxBase_move_none {σ : Type} (R : GameRules σ) (aiColor : Color)
    (g : σ) : (minimaxBase R aiColor g).2 = none := by
  simp only [minimaxBase]
  split_ifs <;> rfl

theorem minimaxBase_fin {σ : Type} (R : GameRules σ) (aiColor : Color)
    (g : σ) : ∃ n, (minimaxBase R aiColor g).1 = XInt.fin n := by
  simp only [minimaxBase]
  split_ifs <;> exact ⟨_, rfl⟩

theorem maxLoop_fin {σ : Type} (R : GameRules σ)
    (rec : σ → XInt → XInt → XInt × Option ChessMove × σ)
    (hrec : ∀ g a b, ∃ n, (rec g a b).1 = XInt.fin n) :
    ∀ (ms : List ChessMove) (g : σ) (alpha beta s : XInt) (mv : Option ChessMove),
      s ≠ XInt.posInf → (s = XInt.negInf → ms ≠ []) →
      ∃ n, (maxLoop R rec g ms alpha beta s mv).1 = XInt.fin n := by
  intro ms
  induction ms with
  | nil =>
    intro g alpha beta s mv h1 h2
    cases s with
    | negInf => exact absurd rfl (h2 rfl)
    | fin n => exact ⟨n, rfl⟩
    | posInf => exact absurd rfl h1
  | cons m rest ih =>
    intro g alpha beta s mv h1 _
    obtain ⟨k, hk⟩ := hrec (applyChild R g m) alpha beta
    simp only [maxLoop, hk]
    by_cases hlt : s < XInt.fin k
    · simp only [if_pos hlt]
      by_cases hb : beta ≤ max alpha (XInt.fin k)
      · simp only [if_pos hb]; exact ⟨k, rfl⟩
      · simp only [if_neg hb]
        exact ih _ _ _ _ _ (fun h => XInt.noConfusion h) (fun h => XInt.noConfusion h)
    · have hs : s ≠ XInt.negInf := by
        intro h; exact hlt (h ▸ XInt.negInf_lt_fin k)
      simp only [if_neg hlt]
      by_cases hb : beta ≤ max alpha s
      · simp only [if_pos hb]
        cases s with
        | negInf => exact absurd rfl hs
        | fin n => exact ⟨n, rfl⟩
        | posInf => exact absurd rfl h1
      · simp only [if_neg hb]
        exact ih _ _ _ _ _ h1 (fun h => absurd h hs)

theorem minLoop_fin {σ : Type} (R : GameRules σ)
    (rec : σ → XInt → XInt → XInt × Option ChessMove × σ)
    (hrec : ∀ g a b, ∃ n, (rec g a b).1 = XInt.fin n) :
    ∀ (ms : List ChessMove) (g : σ) (alpha beta s : XInt) (mv : Option ChessMove),
      s ≠ XInt.negInf → (s = XInt.posInf → ms ≠ []) →
      ∃ n, (minLoop R rec g ms alpha beta s mv).1 = XInt.fin n := by
  intro ms
  induction ms with
  | nil =>
    intro g alpha beta s mv h1 h2
    cases s with
    | negInf => exact absurd rfl h1
    | fin n => exact ⟨n, rfl⟩
    | posInf => exact absurd rfl (h2 rfl)
  | cons m rest ih =>
    intro g alpha beta s mv h1 _
    obtain ⟨k, hk⟩ := hrec (applyChild R g m) alpha beta
    simp only [minLoop, hk]
    by_cases hlt : XInt.fin k < s
    · simp only [if_pos hlt]
      by_cases hb : min beta (XInt.fin k) ≤ alpha
      · simp only [if_pos hb]; exact ⟨k, rfl⟩
      · simp only [if_neg hb]
        exact ih _ _ _ _ _ (fun h => XInt.noConfusion h) (fun h => XInt.noConfusion h)
    · have hs : s ≠ XInt.posInf := by
        intro h; exact hlt (h ▸ XInt.fin_lt_posInf k)
      simp only [if_neg hlt]
      by_cases hb : min beta s ≤ alpha
      · simp only [if_pos hb]
        cases s with
        | negInf => exact absurd rfl h1
        | fin n => exact ⟨n, rfl⟩
        | posInf => exact absurd rfl hs
      · simp only [if_neg hb]
        exact ih _ _ _ _ _ h1 (fun h => absurd h hs)

theorem minimax_fin {σ : Type} (R : GameRules σ) (aiColor : Color) :
    ∀ (depth : Nat) (g : σ) (alpha beta : XInt),
      ∃ n, (minimax R aiColor depth g alpha beta).1 = XInt.fin n := by
  intro depth
  induction depth with
  | zero => intro g alpha beta; exact minimaxBase_fin R aiColor g
  | succ d ih =>
    intro g alpha beta
    simp only [minimax]
    by_cases hg : R.isGameOver g
    · simp only [hg, if_true]; exact minimaxBase_fin R aiColor g
    · simp only [hg, Bool.false_eq_true, if_false]
      by_cases hm : (R.moves g).isEmpty
      · simp only [hm, if_true]
        split_ifs <;> exact ⟨_, rfl⟩
      · have hne : R.moves g ≠ [] := by
          simpa [List.isEmpty_iff] using hm
        simp only [hm, Bool.false_eq_true, if_false]
        by_cases ht : R.turn g = aiColor
        · simp only [ht, if_true]
          exact maxLoop_fin R _ (fun g a b => ih g a b) _ _ _ _ _ _
            (fun h => XInt.noConfusion h) (fun _ => hne)
        · simp only [ht, if_false]
          exact minLoop_fin R _ (fun g a b => ih g a b) _ _ _ _ _ _
            (fun h => XInt.noConfusion h) (fun _ => hne)

theorem maxLoop_keeps_some {σ : Type} (R : GameRules σ)
    (rec : σ → XInt → XInt → XInt × Option ChessMove × σ) :
    ∀ (ms : List ChessMove) (g : σ) (alpha beta s : XInt) (m0 : ChessMove),
      ∃ m, (maxLoop R rec g ms alpha beta s (some m0)).2.1 = some m := by
  intro ms
  induction ms with
  | nil => intro g alpha beta s m0; exact ⟨m0, rfl⟩
  | cons m rest ih =>
    intro g alpha beta s m0
    simp only [maxLoop]
    by_cases hlt : s < (rec (applyChild R g m) alpha beta).1
    · simp only [if_pos hlt]
      by_cases hb : beta ≤ max alpha (rec (applyChild R g m) alpha beta).1
      · simp only [if_pos hb]; exact ⟨m, rfl⟩
      · simp only [if_neg hb]; exact ih _ _ _ _ m
    · simp only [if_neg hlt]
      by_cases hb : beta ≤ max alpha s
      · simp only [if_pos hb]; exact ⟨m0, rfl⟩
      · simp only [if_neg hb]; exact ih _ _ _ _ m0

theorem minLoop_keeps_some {σ : Type} (R : GameRules σ)
    (rec : σ → XInt → XInt → XInt × Option ChessMove × σ) :
    ∀ (ms : List ChessMove) (g : σ) (alpha beta s : XInt) (m0 : ChessMove),
      ∃ m, (minLoop R rec g ms alpha beta s (some m0)).2.1 = some m := by
  intro ms
  induction ms with
  | nil => intro g alpha beta s m0; exact ⟨m0, rfl⟩
  | cons m rest ih =>
    intro g alpha beta s m0
    simp only [minLoop]
    by_cases hlt : (rec (applyChild R g m) alpha beta).1 < s
    · simp only [if_pos hlt]
      by_cases hb : min beta (rec (applyChild R g m) alpha beta).1 ≤ alpha
      · simp only [if_pos hb]; exact ⟨m, rfl⟩
      · simp only [if_neg hb]; exact ih _ _ _ _ m
    · simp only [if_neg hlt]
      by_cases hb : min beta s ≤ alpha
      · simp only [if_pos hb]; exact ⟨m0, rfl⟩
      · simp only [if_neg hb]; exact ih _ _ _ _ m0

/-- C6: every score minimax returns is finite, and minimax returns
move = null exactly when the depth is 0 or the position is terminal
(game over, or no legal move); in particular at depth >= 1 on a
non-terminal position with a legal move the returned move is non-null,
because the first candidate's finite score strictly beats the infinite
initial best score. -/
theorem c6_null_move_iff_terminal {σ : Type} (R : GameRules σ) (aiColor : Color)
    (depth : Nat) (g : σ) (alpha beta : XInt) :
    (∃ n, (minimax R aiColor depth g alpha beta).1 = XInt.fin n) ∧
      ((minimax R aiColor depth g alpha beta).2.1 = none ↔
        depth = 0 ∨ R.isGameOver g = true ∨ R.moves g = []) := by
  refine ⟨minimax_fin R aiColor depth g alpha beta, ?_⟩
  cases depth with
  | zero =>
    simp only [minimax, minimaxBase_move_none R aiColor g]
    simp
  | succ d =>
    simp only [minimax]
    by_cases hg : R.isGameOver g
    · simp [hg, minimaxBase_move_none R aiColor g]
    · simp only [hg, Bool.false_eq_true, if_false]
      by_cases hm : (R.moves g).isEmpty
      · have hnil : R.moves g = [] := by simpa [List.isEmpty_iff] using hm
        simp only [hm, if_true]
        split_ifs <;> simp [hg, hnil]
      · have hne : R.moves g ≠ [] := by simpa [List.isEmpty_iff] using hm
        simp only [hm, Bool.false_eq_true, if_false]
        have hresult : ∀ res : XInt × Option ChessMove × σ,
            (∃ m, res.2.1 = some m) →
            (res.2.1 = none ↔ d + 1 = 0 ∨ False ∨ R.moves g = []) := by
          rintro res ⟨m, hm'⟩
          simp [hm', hne]
        obtain ⟨m, rest, hms⟩ : ∃ m rest, R.moves g = m :: rest := by
          cases hmoves : R.moves g with
          | nil => exact absurd hmoves hne
          | cons a l => exact ⟨a, l, rfl⟩
        by_cases ht : R.turn g = aiColor
        · simp only [ht, if_true]
          refine hresult _ ?_
          rw [hms]
          obtain ⟨k, hk⟩ := minimax_fin R aiColor d (applyChild R g m) alpha beta
          simp only [maxLoop, hk]
          have hlt : XInt.negInf < XInt.fin k := XInt.negInf_lt_fin k
          simp only [if_pos hlt]
          by_cases hb : beta ≤ max alpha (XInt.fin k)
          · simp only [if_pos hb]; exact ⟨m, rfl⟩
          · simp only [if_neg hb]
            exact maxLoop_keeps_some R _ rest _ _ _ _ m
        · simp only [ht, if_false]
          refine hresult _ ?_
          rw [hms]
          obtain ⟨k, hk⟩ := minimax_fin R aiColor d (applyChild R g m) alpha beta
          simp only [minLoop, hk]
          have hlt : XInt.fin k < XInt.posInf := XInt.fin_lt_posInf k
          simp only [if_pos hlt]
          by_cases hb : min beta (XInt.fin k) ≤ alpha
          · simp only [if_pos hb]; exact ⟨m, rfl⟩
          · simp only [if_neg hb]
            exact minLoop_keeps_some R _ rest _ _ _ _ m

theorem foldl_add_sum {α : Type} (f : α → Int) (l : List α) :
    ∀ acc : Int, l.foldl (fun a x => a + f x) acc = acc + (l.map f).sum := by
  induction l with
  | nil => intro acc; simp
  | cons x xs ih =>
    intro acc
    simp only [List.foldl, List.map, List.sum_cons, ih]
    omega

/-- C3: for every position and both perspective sides, evaluateBoard
equals the sum over all pieces of the standard weights (pawn 100,
knight 320, bishop 330, rook 500, queen 900, king 0), added for white and
subtracted for black, plus ten times the number of legal moves of the side
to move (added for white to move, subtracted for black to move), negated
exactly when the perspective side is black. -/
theorem c3_evaluate_matches_spec {σ : Type} (R : GameRules σ) (g : σ)
    (perspective : Color) :
    evaluateBoard R g perspective = evaluateSpec R g perspective := by
  have hcell : ∀ (row : List (Option BoardPiece)) (acc : Int),
      row.foldl (fun acc piece =>
        match piece with
        | none => acc
        | some piece =>
          let baseValue := PIECE_VALUES piece.ptype
          acc + (if piece.color = Color.w then baseValue else -baseValue)) acc
      = acc + (row.map (fun cell =>
          match cell with
          | none => (0 : Int)
          | some piece =>
            if piece.color = Color.w then PIECE_VALUES piece.ptype
            else -(PIECE_VALUES piece.ptype))).sum := by
    intro row
    induction row with
    | nil => intro acc; simp
    | cons c cs ih =>
      intro acc
      cases c with
      | none =>
        simp only [List.foldl, List.map, List.sum_cons, ih]
        omega
      | some piece =>
        simp only [List.foldl, List.map, List.sum_cons, ih]
        omega
  have houter : ∀ (rows : List (List (Option BoardPiece))) (acc : Int),
      rows.foldl (fun acc row => row.foldl (fun acc piece =>
        match piece with
        | none => acc
        | some piece =>
          let baseValue := PIECE_VALUES piece.ptype
          acc + (if piece.color = Color.w then baseValue else -baseValue)) acc) acc
      = acc + (rows.map (fun row => (row.map (fun cell =>
          match cell with
          | none => (0 : Int)
          | some piece =>
            if piece.color = Color.w then PIECE_VALUES piece.ptype
            else -(PIECE_VALUES piece.ptype))).sum)).sum := by
    intro rows acc
    simp only [hcell]
    exact foldl_add_sum _ rows acc
  simp only [evaluateBoard, evaluateSpec, houter]
  cases perspective with
  | w =>
    simp only [reduceCtorEq, if_true, if_false]
    cases hturn : R.turn g <;> simp <;> omega
  | b =>
    simp only [reduceCtorEq, if_true, if_false]
    cases hturn : R.turn g <;> simp <;> omega

theorem maxRefLoop_mono {σ : Type} (R : GameRules σ) (nref : σ → XInt)
    (ms : List ChessMove) (g : σ) :
    ∀ (s : XInt) (mv : Option ChessMove), s ≤ (maxRefLoop R nref g ms s mv).1 := by
  induction ms with
  | nil => intro s mv; exact le_refl s
  | cons m rest ih =>
    intro s mv
    simp only [maxRefLoop]
    by_cases h : s < nref (applyChild R g m)
    · simp only [if_pos h]
      exact le_trans (le_of_lt h) (ih _ _)
    · simp only [if_neg h]
      exact ih _ _

theorem minRefLoop_mono {σ : Type} (R : GameRules σ) (nref : σ → XInt)
    (ms : List ChessMove) (g : σ) :
    ∀ (s : XInt) (mv : Option ChessMove), (minRefLoop R nref g ms s mv).1 ≤ s := by
  induction ms with
  | nil => intro s mv; exact le_refl s
  | cons m rest ih =>
    intro s mv
    simp only [minRefLoop]
    by_cases h : nref (applyChild R g m) < s
    · simp only [if_pos h]
      exact le_trans (ih _ _) (le_of_lt h)
    · simp only [if_neg h]
      exact ih _ _

theorem maxLoopOK {σ : Type} (R : GameRules σ) (rec : σ → XInt → XInt → XInt)
    (nref : σ → XInt) (hc : ChildBound rec nref) (g : σ) (beta alpha0 : XInt)
    (ms : List ChessMove) :
    ∀ (alpha s : XInt) (mv : Option ChessMove) (ps : XInt) (pmv : Option ChessMove),
      alpha < beta →
      alpha = max alpha0 s →
      ps ≤ s →
      (alpha0 < s → (s, mv) = (ps, pmv)) →
      ((maxLoopP R rec g ms alpha beta s mv).1 ≤ alpha0 →
        (maxRefLoop R nref g ms ps pmv).1 ≤ (maxLoopP R rec g ms alpha beta s mv).1) ∧
      (beta ≤ (maxLoopP R rec g ms alpha beta s mv).1 →
        (maxLoopP R rec g ms alpha beta s mv).1 ≤ (maxRefLoop R nref g ms ps pmv).1) ∧
      (alpha0 < (maxLoopP R rec g ms alpha beta s mv).1 →
        (maxLoopP R rec g ms alpha beta s mv).1 < beta →
        maxLoopP R rec g ms alpha beta s mv = maxRefLoop R nref g ms ps pmv) := by
  induction ms with
  | nil =>
    intro alpha s mv ps pmv hab halpha h1 h3
    have hsa : s ≤ alpha := halpha ▸ le_max_right alpha0 s
    refine ⟨fun _ => h1, fun hbs => absurd (lt_of_le_of_lt hsa hab) (not_lt.mpr hbs), ?_⟩
    intro h0 _
    exact h3 h0
  | cons m rest ih =>
    intro alpha s mv ps pmv hab halpha h1 h3
    have hsa : s ≤ alpha := halpha ▸ le_max_right alpha0 s
    have h0a : alpha0 ≤ alpha := halpha ▸ le_max_left alpha0 s
    obtain ⟨cA, cB, cC⟩ := hc (applyChild R g m) alpha beta hab
    set r := rec (applyChild R g m) alpha beta with hrdef
    set nc := nref (applyChild R g m) with hncdef
    simp only [maxLoopP, maxRefLoop, ← hrdef, ← hncdef]
    by_cases hsr : s < r
    · simp only [if_pos hsr]
      by_cases hrb : r < beta
      · have hnb : ¬ beta ≤ max alpha r := not_le.mpr (max_lt_iff.mpr ⟨hab, hrb⟩)
        simp only [if_neg hnb]
        by_cases har : alpha < r
        · have hre : r = nc := cC har hrb
          have hpn : ps < nc := hre ▸ lt_of_le_of_lt h1 hsr
          simp only [if_pos hpn]
          have hab' : max alpha r < beta := max_lt_iff.mpr ⟨hab, hrb⟩
          have halpha' : max alpha r = max alpha0 r := by
            rw [halpha, max_assoc, max_eq_right (le_of_lt hsr)]
          have h1' : nc ≤ r := le_of_eq hre.symm
          have h3' : alpha0 < r → ((r : XInt), some m) = (nc, some m) := by
            intro _; rw [hre]
          exact ih (max alpha r) r (some m) nc (some m) hab' halpha' h1' h3'
        · have hra : r ≤ alpha := le_of_not_lt har
          have hnc : nc ≤ r := cA hra
          have hs0 : s ≤ alpha0 := by
            by_contra hcon
            have heq : alpha = s := by
              rw [halpha, max_eq_right (le_of_lt (lt_of_not_le hcon))]
            rw [heq] at hra
            exact absurd hsr (not_lt.mpr hra)
          have hralpha0 : r ≤ alpha0 := by
            have : alpha = alpha0 := by rw [halpha, max_eq_left hs0]
            exact this ▸ hra
          have hab' : max alpha r < beta := max_lt_iff.mpr ⟨hab, hrb⟩
          have halpha' : max alpha r = max alpha0 r := by
            rw [halpha, max_assoc, max_eq_right (le_of_lt hsr)]
          have h3' : alpha0 < r → ((r : XInt), some m) = (nc, some m) := by
            intro hcon; exact absurd hcon (not_lt.mpr hralpha0)
          by_cases hpn : ps < nc
          · simp only [if_pos hpn]
            exact ih (max alpha r) r (some m) nc (some m) hab' halpha'
              hnc h3'
          · simp only [if_neg hpn]
            exact ih (max alpha r) r (some m) ps pmv hab' halpha'
              (le_trans h1 (le_of_lt hsr))
              (fun hcon => absurd hcon (not_lt.mpr hralpha0))
      · have hbr : beta ≤ r := le_of_not_lt hrb
        have hbk : beta ≤ max alpha r := le_max_of_le_right hbr
        simp only [if_pos hbk]
        have hrnc : r ≤ nc := cB hbr
        refine ⟨?_, ?_, ?_⟩
        · intro hcon
          exact absurd (lt_of_lt_of_le hab (le_trans hbr hcon))
            (not_lt.mpr h0a)
        · intro _
          by_cases hpn : ps < nc
          · simp only [if_pos hpn]
            exact le_trans hrnc (maxRefLoop_mono R nref rest g nc (some m))
          · simp only [if_neg hpn]
            exact le_trans (le_trans hrnc (le_of_not_lt hpn))
              (maxRefLoop_mono R nref rest g ps pmv)
        · intro _ hcon
          exact absurd hcon (not_lt.mpr hbr)
    · simp only [if_neg hsr]
      have hrs : r ≤ s := le_of_not_lt hsr
      have hnc : nc ≤ s := le_trans (cA (le_trans hrs hsa)) hrs
      have hax : max alpha s = alpha := by
        rw [halpha, max_assoc, max_self]
      have hnb : ¬ beta ≤ max alpha s := by
        rw [hax]; exact not_le.mpr hab
      simp only [if_neg hnb]
      have hab' : max alpha s < beta := by rw [hax]; exact hab
      have halpha' : max alpha s = max alpha0 s := by rw [hax, halpha]
      by_cases hpn : ps < nc
      · have hs0 : ¬ alpha0 < s := by
          intro hcon
          have hsps : s = ps := congrArg Prod.fst (h3 hcon)
          exact absurd (lt_of_lt_of_le hpn hnc) (not_lt.mpr (le_of_eq hsps))
        simp only [if_pos hpn]
        exact ih (max alpha s) s mv nc (some m) hab' halpha' hnc
          (fun hcon => absurd hcon hs0)
      · simp only [if_neg hpn]
        exact ih (max alpha s) s mv ps pmv hab' halpha' h1 h3

theorem minLoopOK {σ : Type} (R : GameRules σ) (rec : σ → XInt → XInt → XInt)
    (nref : σ → XInt) (hc : ChildBound rec nref) (g : σ) (alpha beta0 : XInt)
    (ms : List ChessMove) :
    ∀ (beta s : XInt) (mv : Option ChessMove) (ps : XInt) (pmv : Option ChessMove),
      alpha < beta →
      beta = min beta0 s →
      s ≤ ps →
      (s < beta0 → (s, mv) = (ps, pmv)) →
      ((minLoopP R rec g ms alpha beta s mv).1 ≤ alpha →
        (minRefLoop R nref g ms ps pmv).1 ≤ (minLoopP R rec g ms alpha beta s mv).1) ∧
      (beta0 ≤ (minLoopP R rec g ms alpha beta s mv).1 →
        (minLoopP R rec g ms alpha beta s mv).1 ≤ (minRefLoop R nref g ms ps pmv).1) ∧
      (alpha < (minLoopP R rec g ms alpha beta s mv).1 →
        (minLoopP R rec g ms alpha beta s mv).1 < beta0 →
        minLoopP R rec g ms alpha beta s mv = minRefLoop R nref g ms ps pmv) := by
  induction ms with
  | nil =>
    intro beta s mv ps pmv hab hbeta h1 h3
    have hbs : beta ≤ s := hbeta ▸ min_le_right beta0 s
    refine ⟨fun hsa => absurd (lt_of_lt_of_le hab hbs) (not_lt.mpr hsa),
      fun _ => h1, ?_⟩
    intro _ h0
    exact h3 h0
  | cons m rest ih =>
    intro beta s mv ps pmv hab hbeta h1 h3
    have hbs : beta ≤ s := hbeta ▸ min_le_right beta0 s
    have h0b : beta ≤ beta0 := hbeta ▸ min_le_left beta0 s
    obtain ⟨cA, cB, cC⟩ := hc (applyChild R g m) alpha beta hab
    set r := rec (applyChild R g m) alpha beta with hrdef
    set nc := nref (applyChild R g m) with hncdef
    simp only [minLoopP, minRefLoop, ← hrdef, ← hncdef]
    by_cases hsr : r < s
    · simp only [if_pos hsr]
      by_cases har : alpha < r
      · have hnb : ¬ min beta r ≤ alpha := not_le.mpr (lt_min_iff.mpr ⟨hab, har⟩)
        simp only [if_neg hnb]
        have hab' : alpha < min beta r := lt_min_iff.mpr ⟨hab, har⟩
        have hbeta' : min beta r = min beta0 r := by
          rw [hbeta, min_assoc, min_eq_right (le_of_lt hsr)]
        by_cases hrb : r < beta
        · have hre : r = nc := cC har hrb
          have hpn : nc < ps := hre ▸ lt_of_lt_of_le hsr h1
          simp only [if_pos hpn]
          have h1' : r ≤ nc := le_of_eq hre
          have h3' : r < beta0 → ((r : XInt), some m) = (nc, some m) := by
            intro _; rw [hre]
          exact ih (min beta r) r (some m) nc (some m) hab' hbeta' h1' h3'
        · have hbr : beta ≤ r := le_of_not_lt hrb
          have hrnc : r ≤ nc := cB hbr
          have hs0 : beta0 ≤ s := by
            by_contra hcon
            have heq : beta = s := by
              rw [hbeta, min_eq_right (le_of_lt (lt_of_not_le hcon))]
            rw [heq] at hbr
            exact absurd hsr (not_lt.mpr hbr)
          have hrbeta0 : beta0 ≤ r := by
            have heq : beta = beta0 := by rw [hbeta, min_eq_left hs0]
            exact heq ▸ hbr
          have h3' : r < beta0 → ((r : XInt), some m) = (nc, some m) :=
            fun hcon => absurd hcon (not_lt.mpr hrbeta0)
          by_cases hpn : nc < ps
          · simp only [if_pos hpn]
            exact ih (min beta r) r (some m) nc (some m) hab' hbeta' hrnc h3'
          · simp only [if_neg hpn]
            exact ih (min beta r) r (some m) ps pmv hab' hbeta'
              (le_trans (le_of_lt hsr) h1)
              (fun hcon => absurd hcon (not_lt.mpr hrbeta0))
      · have hra : r ≤ alpha := le_of_not_lt har
        have hbk : min beta r ≤ alpha := min_le_of_right_le hra
        simp only [if_pos hbk]
        have hnc : nc ≤ r := cA hra
        have hpn : nc < ps := lt_of_le_of_lt hnc (lt_of_lt_of_le hsr h1)
        refine ⟨?_, ?_, ?_⟩
        · intro _
          simp only [if_pos hpn]
          exact le_trans (minRefLoop_mono R nref rest g nc (some m)) hnc
        · intro hcon
          exact absurd (lt_of_le_of_lt (le_trans hcon hra) (lt_of_lt_of_le hab h0b))
            (lt_irrefl beta0)
        · intro hcon _
          exact absurd hcon (not_lt.mpr hra)
    · simp only [if_neg hsr]
      have hrs : s ≤ r := le_of_not_lt hsr
      have hbx : min beta s = beta := min_eq_left hbs
      have hnb : ¬ min beta s ≤ alpha := by rw [hbx]; exact not_le.mpr hab
      simp only [if_neg hnb]
      have hnc : s ≤ nc := by
        by_cases hbr : beta ≤ r
        · exact le_trans hrs (cB hbr)
        · have har : alpha < r := lt_of_lt_of_le (lt_of_lt_of_le hab hbs) hrs
          have hre : r = nc := cC har (lt_of_not_le hbr)
          exact hre ▸ hrs
      have hab' : alpha < min beta s := by rw [hbx]; exact hab
      have hbeta' : min beta s = min beta0 s := by rw [hbx, hbeta]
      by_cases hpn : nc < ps
      · have hs0 : ¬ s < beta0 := by
          intro hcon
          have hsps : s = ps := congrArg Prod.fst (h3 hcon)
          exact absurd (lt_of_lt_of_le hpn (le_of_eq hsps.symm)) (not_lt.mpr hnc)
        simp only [if_pos hpn]
        exact ih (min beta s) s mv nc (some m) hab' hbeta' hnc
          (fun hcon => absurd hcon hs0)
      · simp only [if_neg hpn]
        exact ih (min beta s) s mv ps pmv hab' hbeta' h1 h3

theorem abMatch_all {σ : Type} (R : GameRules σ) (aiColor : Color) :
    ∀ depth : Nat, ABMatch R aiColor depth := by
  intro depth
  induction depth with
  | zero =>
    intro g alpha beta _
    exact ⟨fun _ => le_refl _, fun _ => le_refl _, fun _ _ => rfl⟩
  | succ d ih =>
    intro g alpha beta hab
    have hcb : ChildBound (fun g a b => (minimaxP R aiColor d g a b).1)
        (fun g => (minimaxRef R aiColor d g).1) :=
      fun g a b h =>
        ⟨(ih g a b h).1, (ih g a b h).2.1,
         fun h1 h2 => congrArg Prod.fst ((ih g a b h).2.2 h1 h2)⟩
    simp only [minimaxP, minimaxRef]
    by_cases hg : R.isGameOver g
    · simp only [hg, if_true]
      exact ⟨fun _ => le_refl _, fun _ => le_refl _, fun _ _ => trivial⟩
    · simp only [hg, Bool.false_eq_true, if_false]
      by_cases hm : (R.moves g).isEmpty
      · simp only [hm, if_true]
        split_ifs <;>
          exact ⟨fun _ => le_refl _, fun _ => le_refl _, fun _ _ => trivial⟩
      · simp only [hm, Bool.false_eq_true, if_false]
        by_cases ht : R.turn g = aiColor
        · simp only [ht, if_true]
          exact maxLoopOK R _ _ hcb g beta alpha (R.moves g) alpha XInt.negInf none
            XInt.negInf none hab (max_eq_left (XInt.negInf_le alpha)).symm
            (le_refl _) (fun h => absurd h (XInt.not_lt_negInf alpha))
        · simp only [ht, if_false]
          exact minLoopOK R _ _ hcb g alpha beta (R.moves g) beta XInt.posInf none
            XInt.posInf none hab (min_eq_left (XInt.le_posInf beta)).symm
            (le_refl _) (fun h => absurd h (XInt.not_posInf_lt beta))

/-- C1: with the full window (alpha = -Infinity, beta = +Infinity), on a
rules engine with perfect undo, the alpha-beta search returns exactly the
score and the move of the exhaustive minimax reference (same base cases,
same strict tie-break, same move-generation order): pruning never changes
the result. -/
theorem c1_pruning_equals_exhaustive {σ : Type} (R : GameRules σ)
    (aiColor : Color) (hu : PerfectUndo R) (depth : Nat) (g : σ) :
    ((minimax R aiColor depth g XInt.negInf XInt.posInf).1,
     (minimax R aiColor depth g XInt.negInf XInt.posInf).2.1)
      = minimaxRef R aiColor depth g := by
  have hpure := minimax_eq_pure R aiColor hu depth g XInt.negInf XInt.posInf
  obtain ⟨n, hn⟩ := minimax_fin R aiColor depth g XInt.negInf XInt.posInf
  have hP : (minimaxP R aiColor depth g XInt.negInf XInt.posInf).1 = XInt.fin n := by
    rw [hpure] at hn
    exact hn
  have hab : XInt.negInf < XInt.posInf :=
    lt_of_lt_of_le (XInt.negInf_lt_fin 0) (XInt.le_posInf _)
  have heq := (abMatch_all R aiColor depth g XInt.negInf XInt.posInf hab).2.2
    (by rw [hP]; exact XInt.negInf_lt_fin n)
    (by rw [hP]; exact XInt.fin_lt_posInf n)
  rw [hpure]
  exact Prod.mk.eta.trans heq

/-- Witness for C1 at the concrete demo engine: undo is perfect there and
a depth-2 full-window search from the root agrees with the reference. -/
theorem c1_witness :
    PerfectUndo demoRules ∧
      ((minimax demoRules Color.w 2 [] XInt.negInf XInt.posInf).1,
       (minimax demoRules Color.w 2 [] XInt.negInf XInt.posInf).2.1)
        = minimaxRef demoRules Color.w 2 [] :=
  ⟨fun _ _ _ _ => rfl,
   c1_pruning_equals_exhaustive demoRules Color.w (fun _ _ _ _ => rfl) 2 []⟩

theorem maxLoopP_mono {σ : Type} (R : GameRules σ) (rec : σ → XInt → XInt → XInt)
    (g : σ) (ms : List ChessMove) :
    ∀ (alpha beta s : XInt) (mv : Option ChessMove),
      s ≤ (maxLoopP R rec g ms alpha beta s mv).1 := by
  induction ms with
  | nil => intro alpha beta s mv; exact le_refl s
  | cons m rest ih =>
    intro alpha beta s mv
    simp only [maxLoopP]
    by_cases hsr : s < rec (applyChild R g m) alpha beta
    · simp only [if_pos hsr]
      by_cases hb : beta ≤ max alpha (rec (applyChild R g m) alpha beta)
      · simp only [if_pos hb]; exact le_of_lt hsr
      · simp only [if_neg hb]
        exact le_trans (le_of_lt hsr) (ih _ _ _ _)
    · simp only [if_neg hsr]
      by_cases hb : beta ≤ max alpha s
      · simp only [if_pos hb]; exact le_refl s
      · simp only [if_neg hb]; exact ih _ _ _ _

theorem minLoopP_mono {σ : Type} (R : GameRules σ) (rec : σ → XInt → XInt → XInt)
    (g : σ) (ms : List ChessMove) :
    ∀ (alpha beta s : XInt) (mv : Option ChessMove),
      (minLoopP R rec g ms alpha beta s mv).1 ≤ s := by
  induction ms with
  | nil => intro alpha beta s mv; exact le_refl s
  | cons m rest ih =>
    intro alpha beta s mv
    simp only [minLoopP]
    by_cases hsr : rec (applyChild R g m) alpha beta < s
    · simp only [if_pos hsr]
      by_cases hb : min beta (rec (applyChild R g m) alpha beta) ≤ alpha
      · simp only [if_pos hb]; exact le_of_lt hsr
      · simp only [if_neg hb]
        exact le_trans (ih _ _ _ _) (le_of_lt hsr)
    · simp only [if_neg hsr]
      by_cases hb : min beta s ≤ alpha
      · simp only [if_pos hb]; exact le_refl s
      · simp only [if_neg hb]; exact ih _ _ _ _

theorem maxLoopP_trace {σ : Type} (R : GameRules σ) (rec : σ → XInt → XInt → XInt)
    (g : σ) (ms : List ChessMove) :
    ∀ (alpha beta s : XInt) (mv : Option ChessMove),
      (s < (maxLoopP R rec g ms alpha beta s mv).1 →
        (maxLoopP R rec g ms alpha beta s mv).2
          = firstAttains (maxLoopP R rec g ms alpha beta s mv).1
              (maxTrace R rec g ms alpha beta s)) ∧
      (¬ s < (maxLoopP R rec g ms alpha beta s mv).1 →
        maxLoopP R rec g ms alpha beta s mv = (s, mv)) := by
  induction ms with
  | nil =>
    intro alpha beta s mv
    exact ⟨fun h => absurd h (lt_irrefl s), fun _ => rfl⟩
  | cons m rest ih =>
    intro alpha beta s mv
    simp only [maxLoopP, maxTrace]
    by_cases hsr : s < rec (applyChild R g m) alpha beta
    · simp only [if_pos hsr]
      by_cases hb : beta ≤ max alpha (rec (applyChild R g m) alpha beta)
      · simp only [if_pos hb]
        refine ⟨fun _ => ?_, fun h => absurd hsr h⟩
        simp [firstAttains]
      · simp only [if_neg hb]
        have hmono := maxLoopP_mono R rec g rest (max alpha (rec (applyChild R g m) alpha beta))
          beta (rec (applyChild R g m) alpha beta) (some m)
        constructor
        · intro _
          by_cases hr : rec (applyChild R g m) alpha beta
              < (maxLoopP R rec g rest (max alpha (rec (applyChild R g m) alpha beta)) beta
                  (rec (applyChild R g m) alpha beta) (some m)).1
          · rw [(ih _ _ _ _).1 hr]
            simp only [firstAttains, if_neg (ne_of_lt hr)]
          · rw [(ih _ _ _ _).2 hr]
            simp [firstAttains]
        · intro h
          exact absurd (lt_of_lt_of_le hsr hmono) h
    · simp only [if_neg hsr]
      by_cases hb : beta ≤ max alpha s
      · simp only [if_pos hb]
        exact ⟨fun h => absurd h (lt_irrefl s), fun _ => trivial⟩
      · simp only [if_neg hb]
        have hrs : rec (applyChild R g m) alpha beta ≤ s := le_of_not_lt hsr
        constructor
        · intro h
          rw [(ih _ _ _ _).1 h]
          have hne : rec (applyChild R g m) alpha beta
              ≠ (maxLoopP R rec g rest (max alpha s) beta s mv).1 :=
            ne_of_lt (lt_of_le_of_lt hrs h)
          simp only [firstAttains, if_neg hne]
        · intro h
          exact (ih _ _ _ _).2 h

theorem minLoopP_trace {σ : Type} (R : GameRules σ) (rec : σ → XInt → XInt → XInt)
    (g : σ) (ms : List ChessMove) :
    ∀ (alpha beta s : XInt) (mv : Option ChessMove),
      ((minLoopP R rec g ms alpha beta s mv).1 < s →
        (minLoopP R rec g ms alpha beta s mv).2
          = firstAttains (minLoopP R rec g ms alpha beta s mv).1
              (minTrace R rec g ms alpha beta s)) ∧
      (¬ (minLoopP R rec g ms alpha beta s mv).1 < s →
        minLoopP R rec g ms alpha beta s mv = (s, mv)) := by
  induction ms with
  | nil =>
    intro alpha beta s mv
    exact ⟨fun h => absurd h (lt_irrefl s), fun _ => rfl⟩
  | cons m rest ih =>
    intro alpha beta s mv
    simp only [minLoopP, minTrace]
    by_cases hsr : rec (applyChild R g m) alpha beta < s
    · simp only [if_pos hsr]
      by_cases hb : min beta (rec (applyChild R g m) alpha beta) ≤ alpha
      · simp only [if_pos hb]
        refine ⟨fun _ => ?_, fun h => absurd hsr h⟩
        simp [firstAttains]
      · simp only [if_neg hb]
        have hmono := minLoopP_mono R rec g rest alpha
          (min beta (rec (applyChild R g m) alpha beta))
          (rec (applyChild R g m) alpha beta) (some m)
        constructor
        · intro _
          by_cases hr : (minLoopP R rec g rest alpha
                (min beta (rec (applyChild R g m) alpha beta))
                (rec (applyChild R g m) alpha beta) (some m)).1
              < rec (applyChild R g m) alpha beta
          · rw [(ih _ _ _ _).1 hr]
            simp only [firstAttains, if_neg (ne_of_gt hr)]
          · rw [(ih _ _ _ _).2 hr]
            simp [firstAttains]
        · intro h
          exact absurd (lt_of_le_of_lt hmono hsr) h
    · simp only [if_neg hsr]
      by_cases hb : min beta s ≤ alpha
      · simp only [if_pos hb]
        exact ⟨fun h => absurd h (lt_irrefl s), fun _ => trivial⟩
      · simp only [if_neg hb]
        have hrs : s ≤ rec (applyChild R g m) alpha beta := le_of_not_lt hsr
        constructor
        · intro h
          rw [(ih _ _ _ _).1 h]
          have hne : rec (applyChild R g m) alpha beta
              ≠ (minLoopP R rec g rest alpha (min beta s) s mv).1 :=
            ne_of_gt (lt_of_lt_of_le h hrs)
          simp only [firstAttains, if_neg hne]
        · intro h
          exact (ih _ _ _ _).2 h

/-- C4: at a recursive node the incumbent best move is replaced only by a
strictly better candidate (greater at a maximizing node, smaller at a
minimizing node), never by an equal one, so the move returned is the first
candidate in the move generator's iteration order whose computed recursive
score attains the returned best score. -/
theorem c4_first_move_attaining_best {σ : Type} (R : GameRules σ)
    (aiColor : Color) (hu : PerfectUndo R) (depth : Nat) (g : σ)
    (alpha beta : XInt) (hg : R.isGameOver g = false) (hne : R.moves g ≠ []) :
    (minimax R aiColor (depth + 1) g alpha beta).2.1
      = firstAttains (minimax R aiColor (depth + 1) g alpha beta).1
          (nodeTrace R aiColor depth g alpha beta) := by
  have hm : ¬ (R.moves g).isEmpty = true := by
    simpa [List.isEmpty_iff] using hne
  obtain ⟨n, hn⟩ := minimax_fin R aiColor (depth + 1) g alpha beta
  rw [minimax_eq_pure R aiColor hu] at hn ⊢
  simp only [minimaxP, nodeTrace, hg, Bool.false_eq_true, if_false, hm] at hn ⊢
  by_cases ht : R.turn g = aiColor
  · simp only [ht, if_true] at hn ⊢
    have hlt : XInt.negInf
        < (maxLoopP R (fun g a b => (minimaxP R aiColor depth g a b).1) g
            (R.moves g) alpha beta XInt.negInf none).1 := by
      rw [hn]
      exact XInt.negInf_lt_fin n
    exact (maxLoopP_trace R _ g (R.moves g) alpha beta XInt.negInf none).1 hlt
  · simp only [ht, if_false] at hn ⊢
    have hlt : (minLoopP R (fun g a b => (minimaxP R aiColor depth g a b).1) g
          (R.moves g) alpha beta XInt.posInf none).1 < XInt.posInf := by
      rw [hn]
      exact XInt.fin_lt_posInf n
    exact (minLoopP_trace R _ g (R.moves g) alpha beta XInt.posInf none).1 hlt

/-- Witness for C4 at the concrete demo engine: at the root both
candidates score equally, the tie does not displace the incumbent, and the
returned move is the first trace entry attaining the returned score. -/
theorem c4_witness :
    PerfectUndo demoRules ∧ demoRules.isGameOver [] = false ∧
      demoRules.moves [] ≠ [] ∧
      (minimax demoRules Color.w 1 [] XInt.negInf XInt.posInf).2.1
        = firstAttains (minimax demoRules Color.w 1 [] XInt.negInf XInt.posInf).1
            (nodeTrace demoRules Color.w 0 [] XInt.negInf XInt.posInf) :=
  ⟨fun _ _ _ _ => rfl, rfl, by decide,
   c4_first_move_attaining_best demoRules Color.w (fun _ _ _ _ => rfl) 0 []
     XInt.negInf XInt.posInf rfl (by decide)⟩

theorem lookupPending_perm (l : List (Nat × Nat)) (id tok : Nat)
    (h : lookupPending l id = some tok) :
    List.Perm (l.map (fun e => e.2)) (tok :: (removePending l id).map (fun e => e.2)) := by
  induction l with
  | nil => cases h
  | cons e rest ih =>
    by_cases he : e.1 = id
    · simp only [lookupPending, if_pos he] at h
      obtain rfl : e.2 = tok := Option.some.inj h
      simp only [removePending, if_pos he, List.map]
      exact List.Perm.refl _
    · simp only [lookupPending, if_neg he] at h
      simp only [removePending, if_neg he, List.map]
      exact ((ih h).cons e.2).trans (List.Perm.swap tok e.2 _)

theorem removePending_subset (l : List (Nat × Nat)) (id : Nat) :
    ∀ e ∈ removePending l id, e ∈ l := by
  induction l with
  | nil => intro e he; cases he
  | cons x rest ih =>
    intro e he
    by_cases hx : x.1 = id
    · simp only [removePending, if_pos hx] at he
      exact List.mem_cons_of_mem x he
    · simp only [removePending, if_neg hx, List.mem_cons] at he
      cases he with
      | inl h => exact h ▸ List.mem_cons_self x rest
      | inr h => exact List.mem_cons_of_mem x (ih e h)

theorem removePending_append_fresh (l : List (Nat × Nat)) (id tok : Nat)
    (h : ∀ e ∈ l, e.1 ≠ id) : removePending (l ++ [(id, tok)]) id = l := by
  induction l with
  | nil => simp [removePending]
  | cons x rest ih =>
    have hx : x.1 ≠ id := h x (List.mem_cons_self x rest)
    simp only [List.cons_append, removePending, if_neg hx]
    exact congrArg (List.cons x) (ih (fun e he => h e (List.mem_cons_of_mem x he)))

theorem settledTokens_rejectAll (l : List (Nat × Nat)) :
    settledTokens (l.map (fun e => AiSettle.reject e.2)) = l.map (fun e => e.2) := by
  simp only [settledTokens, List.map_map]
  rfl

theorem stepAi_inv (st : AiState) (settled : List Nat) (e : AiEvent)
    (h : AiInv st settled) :
    AiInv (stepAi st e).1 (settled ++ settledTokens (stepAi st e).2) := by
  obtain ⟨hnodup, hbound, hid⟩ := h
  cases e with
  | compute sf =>
    have hfresh : ∀ x ∈ pendingTokens st ++ settled, x ≠ st.nextToken :=
      fun x hx => ne_of_lt (hbound x hx)
    have hperm : List.Perm ((pendingTokens st ++ [st.nextToken]) ++ settled)
        (st.nextToken :: (pendingTokens st ++ settled)) :=
      (List.perm_append_singleton st.nextToken (pendingTokens st)).append_right settled
    cases sf with
    | false =>
      have hstep : stepAi st (AiEvent.compute false)
          = ({ st with
                workerAlive := true
                nextRequestId := st.nextRequestId + 1
                pending := st.pending ++ [(st.nextRequestId, st.nextToken)]
                nextToken := st.nextToken + 1 }, []) := rfl
      rw [hstep]
      refine ⟨?_, ?_, ?_⟩
      · refine hperm.symm.nodup (List.nodup_cons.mpr
          ⟨fun hmem => absurd rfl (hfresh _ hmem), hnodup⟩) |> fun hn => ?_
        simpa [pendingTokens, settledTokens] using hn
      · intro t ht
        have ht' : t ∈ st.nextToken :: (pendingTokens st ++ settled) := by
          refine hperm.mem_iff.mp ?_
          simpa [pendingTokens, settledTokens] using ht
        rcases List.mem_cons.mp ht' with rfl | hmem
        · exact Nat.lt_succ_self _
        · exact lt_trans (hbound t hmem) (Nat.lt_succ_self _)
      · intro i hi
        have hi' : i ∈ pendingIds st ++ [st.nextRequestId] := by
          simpa [pendingIds] using hi
        rcases List.mem_append.mp hi' with hmem | hmem
        · exact lt_trans (hid _ hmem) (Nat.lt_succ_self _)
        · rw [List.mem_singleton.mp hmem]
          exact Nat.lt_succ_self _
    | true =>
      have hids : ∀ x ∈ st.pending, x.1 ≠ st.nextRequestId :=
        fun x hx => ne_of_lt (hid _ (List.mem_map_of_mem _ hx))
      have hrm : removePending (st.pending ++ [(st.nextRequestId, st.nextToken)])
          st.nextRequestId = st.pending :=
        removePending_append_fresh st.pending st.nextRequestId st.nextToken hids
      have hperm2 : List.Perm (pendingTokens st ++ (settled ++ [st.nextToken]))
          (st.nextToken :: (pendingTokens st ++ settled)) := by
        rw [← List.append_assoc]
        exact List.perm_append_singleton _ _
      have hstep : stepAi st (AiEvent.compute true)
          = ({ st with
                workerAlive := true
                nextRequestId := st.nextRequestId + 1
                pending := removePending
                  (st.pending ++ [(st.nextRequestId, st.nextToken)]) st.nextRequestId
                nextToken := st.nextToken + 1 }, [AiSettle.reject st.nextToken]) := rfl
      rw [hstep, hrm]
      refine ⟨?_, ?_, ?_⟩
      · refine hperm2.symm.nodup (List.nodup_cons.mpr
          ⟨fun hmem => absurd rfl (hfresh _ hmem), hnodup⟩) |> fun hn => ?_
        simpa [pendingTokens, settledTokens] using hn
      · intro t ht
        have ht' : t ∈ st.nextToken :: (pendingTokens st ++ settled) := by
          refine hperm2.mem_iff.mp ?_
          simpa [pendingTokens, settledTokens] using ht
        rcases List.mem_cons.mp ht' with rfl | hmem
        · exact Nat.lt_succ_self _
        · exact lt_trans (hbound t hmem) (Nat.lt_succ_self _)
      · intro i hi
        refine lt_trans (hid i ?_) (Nat.lt_succ_self _)
        simpa [pendingIds] using hi
  | response id mv =>
    cases hl : lookupPending st.pending id with
    | none =>
      have hstep : stepAi st (AiEvent.response id mv) = (st, []) := by
        simp [stepAi, handleWorkerMessage, hl]
      rw [hstep]
      have hnil : settled ++ settledTokens [] = settled := by simp [settledTokens]
      rw [hnil]
      exact ⟨hnodup, hbound, hid⟩
    | some tok =>
      have hstep : stepAi st (AiEvent.response id mv)
          = ({ st with pending := removePending st.pending id },
             [AiSettle.resolve tok mv]) := by
        simp [stepAi, handleWorkerMessage, hl]
      have hperm := lookupPending_perm st.pending id tok hl
      have hperm2 : List.Perm
          ((removePending st.pending id).map (fun e => e.2) ++ (settled ++ [tok]))
          (pendingTokens st ++ settled) := by
        rw [← List.append_assoc]
        exact (List.perm_append_singleton _ _).trans (hperm.symm.append_right settled)
      rw [hstep]
      refine ⟨?_, ?_, ?_⟩
      · refine hperm2.symm.nodup hnodup |> fun hn => ?_
        simpa [pendingTokens, settledTokens] using hn
      · intro t ht
        refine hbound t (hperm2.mem_iff.mp ?_)
        simpa [pendingTokens, settledTokens] using ht
      · intro i hi
        simp only [pendingIds, List.mem_map] at hi
        rcases hi with ⟨x, hx, rfl⟩
        exact hid _ (List.mem_map_of_mem _ (removePending_subset _ _ x hx))
  | workerFault =>
    have hcomm : (settled ++ pendingTokens st).Nodup :=
      List.perm_append_comm.nodup hnodup
    cases hw : st.workerAlive with
    | true =>
      have hstep : stepAi st AiEvent.workerFault
          = (⟨false, 1, [], st.nextToken⟩,
             st.pending.map (fun e => AiSettle.reject e.2)) := by
        simp [stepAi, handleWorkerError, terminateAiWorker, hw]
      rw [hstep]
      refine ⟨?_, ?_, ?_⟩
      · simpa [pendingTokens, settledTokens_rejectAll] using hcomm
      · intro t ht
        have ht' : t ∈ settled ++ pendingTokens st := by
          simpa [pendingTokens, settledTokens_rejectAll] using ht
        exact hbound t (List.perm_append_comm.mem_iff.mp ht')
      · intro i hi
        simp [pendingIds] at hi
    | false =>
      have hstep : stepAi st AiEvent.workerFault
          = ({ st with pending := [] },
             st.pending.map (fun e => AiSettle.reject e.2)) := by
        simp [stepAi, handleWorkerError, terminateAiWorker, hw]
      rw [hstep]
      refine ⟨?_, ?_, ?_⟩
      · simpa [pendingTokens, settledTokens_rejectAll] using hcomm
      · intro t ht
        have ht' : t ∈ settled ++ pendingTokens st := by
          simpa [pendingTokens, settledTokens_rejectAll] using ht
        exact hbound t (List.perm_append_comm.mem_iff.mp ht')
      · intro i hi
        simp [pendingIds] at hi
  | terminate =>
    cases hw : st.workerAlive with
    | true =>
      have hcomm : (settled ++ pendingTokens st).Nodup :=
        List.perm_append_comm.nodup hnodup
      have hstep : stepAi st AiEvent.terminate
          = (⟨false, 1, [], st.nextToken⟩,
             st.pending.map (fun e => AiSettle.reject e.2)) := by
        simp [stepAi, terminateAiWorker, hw]
      rw [hstep]
      refine ⟨?_, ?_, ?_⟩
      · simpa [pendingTokens, settledTokens_rejectAll] using hcomm
      · intro t ht
        have ht' : t ∈ settled ++ pendingTokens st := by
          simpa [pendingTokens, settledTokens_rejectAll] using ht
        exact hbound t (List.perm_append_comm.mem_iff.mp ht')
      · intro i hi
        simp [pendingIds] at hi
    | false =>
      have hstep : stepAi st AiEvent.terminate = (st, []) := by
        simp [stepAi, terminateAiWorker, hw]
      rw [hstep]
      have hnil : settled ++ settledTokens [] = settled := by simp [settledTokens]
      rw [hnil]
      exact ⟨hnodup, hbound, hid⟩

theorem runAi_inv (es : List AiEvent) :
    ∀ (st : AiState) (settled : List Nat), AiInv st settled →
      AiInv (runAi st es).1 (settled ++ settledTokens (runAi st es).2) := by
  induction es with
  | nil =>
    intro st settled h
    simpa [runAi, settledTokens] using h
  | cons e es ih =>
    intro st settled h
    have h1 := stepAi_inv st settled e h
    have h2 := ih (stepAi st e).1 (settled ++ settledTokens (stepAi st e).2) h1
    simpa [runAi, settledTokens, List.map_append, List.append_assoc] using h2

theorem initialAiState_inv : AiInv initialAiState [] := by
  refine ⟨List.nodup_nil, ?_, ?_⟩
  · intro t ht
    simp [initialAiState, pendingTokens] at ht
  · intro i hi
    simp [initialAiState, pendingIds] at hi

/-- C7: across any event sequence from the initial facade state each
promise is settled at most once (the settled tokens never repeat), a
response whose id has a pending entry is delivered to exactly that entry —
the entry is removed and its promise resolved with the response's move,
regardless of arrival order — and a response whose id has no pending entry
changes nothing and is silently dropped. -/
theorem c7_response_correlation :
    (∀ events : List AiEvent,
      (settledTokens (runAi initialAiState events).2).Nodup) ∧
    (∀ (st : AiState) (id : Nat) (mv : Option ChessMove) (tok : Nat),
      lookupPending st.pending id = some tok →
      stepAi st (AiEvent.response id mv)
        = ({ st with pending := removePending st.pending id },
           [AiSettle.resolve tok mv])) ∧
    (∀ (st : AiState) (id : Nat) (mv : Option ChessMove),
      lookupPending st.pending id = none →
      stepAi st (AiEvent.response id mv) = (st, [])) := by
  refine ⟨?_, ?_, ?_⟩
  · intro events
    have h := (runAi_inv events initialAiState [] initialAiState_inv).1
    rw [List.nil_append] at h
    exact (List.nodup_append.mp h).2.1
  · intro st id mv tok hl
    simp [stepAi, handleWorkerMessage, hl]
  · intro st id mv hl
    simp [stepAi, handleWorkerMessage, hl]

/-- Witness for C7: a run with two requests, a matched response, its
duplicate (dropped) and the other response keeps settlements duplicate
free; a matched response removes exactly its entry; an unknown id is a
no-op. -/
theorem c7_witness :
    (settledTokens (runAi initialAiState
        [AiEvent.compute false, AiEvent.compute false,
         AiEvent.response 2 (some mvA), AiEvent.response 2 (some mvA),
         AiEvent.response 1 none]).2).Nodup ∧
    stepAi ⟨true, 3, [(1, 0), (2, 1)], 2⟩ (AiEvent.response 2 (some mvA))
      = ({ (⟨true, 3, [(1, 0), (2, 1)], 2⟩ : AiState) with
            pending := removePending [(1, 0), (2, 1)] 2 },
         [AiSettle.resolve 1 (some mvA)]) ∧
    stepAi ⟨true, 3, [(1, 0)], 2⟩ (AiEvent.response 7 none)
      = (⟨true, 3, [(1, 0)], 2⟩, []) :=
  ⟨c7_response_correlation.1 _,
   c7_response_correlation.2.1 ⟨true, 3, [(1, 0), (2, 1)], 2⟩ 2 (some mvA) 1 rfl,
   c7_response_correlation.2.2 ⟨true, 3, [(1, 0)], 2⟩ 7 none rfl⟩

/-- C8: a boundary fault with K pending requests rejects all K of them,
leaves the table empty and tears the worker down (counter reset included);
a subsequent computeBestMove lazily recreates the worker and proceeds
normally, registering its fresh request. -/
theorem c8_fault_fanout_and_recovery :
    (∀ st : AiState, st.workerAlive = true →
      stepAi st AiEvent.workerFault
        = (⟨false, 1, [], st.nextToken⟩,
           st.pending.map (fun e => AiSettle.reject e.2))) ∧
    (∀ st : AiState, st.workerAlive = false →
      stepAi st (AiEvent.compute false)
        = ({ st with
              workerAlive := true
              nextRequestId := st.nextRequestId + 1
              pending := st.pending ++ [(st.nextRequestId, st.nextToken)]
              nextToken := st.nextToken + 1 }, [])) := by
  constructor
  · intro st hw
    simp [stepAi, handleWorkerError, terminateAiWorker, hw]
  · intro st _
    rfl

/-- Witness for C8: a fault with two pending requests rejects both and
clears everything; the next compute recreates the worker and registers
request 1. -/
theorem c8_witness :
    (⟨true, 5, [(3, 0), (4, 1)], 2⟩ : AiState).workerAlive = true ∧
    stepAi ⟨true, 5, [(3, 0), (4, 1)], 2⟩ AiEvent.workerFault
      = (⟨false, 1, [], 2⟩, [AiSettle.reject 0, AiSettle.reject 1]) ∧
    (⟨false, 1, [], 2⟩ : AiState).workerAlive = false ∧
    stepAi ⟨false, 1, [], 2⟩ (AiEvent.compute false)
      = (⟨true, 2, [(1, 2)], 3⟩, []) := by
  refine ⟨rfl, ?_, rfl, ?_⟩
  · have h := c8_fault_fanout_and_recovery.1 ⟨true, 5, [(3, 0), (4, 1)], 2⟩ rfl
    simpa using h
  · have h := c8_fault_fanout_and_recovery.2 ⟨false, 1, [], 2⟩ rfl
    simpa using h

theorem stepAi_idBound (st : AiState) (e : AiEvent) (h : IdBound st) :
    IdBound (stepAi st e).1 := by
  cases e with
  | compute sf =>
    cases sf with
    | false =>
      intro i hi
      have hi' : i ∈ pendingIds st ++ [st.nextRequestId] := by
        simpa [stepAi, computeBestMove, ensureWorker, pendingIds] using hi
      rcases List.mem_append.mp hi' with hmem | hmem
      · exact lt_trans (h _ hmem) (Nat.lt_succ_self _)
      · rw [List.mem_singleton.mp hmem]
        exact Nat.lt_succ_self _
    | true =>
      intro i hi
      have hi' : ∃ x ∈ removePending
          (st.pending ++ [(st.nextRequestId, st.nextToken)]) st.nextRequestId,
          x.1 = i := by
        simpa [stepAi, computeBestMove, ensureWorker, pendingIds] using hi
      rcases hi' with ⟨x, hx, rfl⟩
      rcases List.mem_append.mp (removePending_subset _ _ x hx) with hmem | hmem
      · exact lt_trans (h _ (List.mem_map_of_mem _ hmem)) (Nat.lt_succ_self _)
      · rw [List.mem_singleton.mp hmem]
        exact Nat.lt_succ_self _
  | response id mv =>
    cases hl : lookupPending st.pending id with
    | none =>
      have hstep : stepAi st (AiEvent.response id mv) = (st, []) := by
        simp [stepAi, handleWorkerMessage, hl]
      rw [hstep]
      exact h
    | some tok =>
      have hstep : stepAi st (AiEvent.response id mv)
          = ({ st with pending := removePending st.pending id },
             [AiSettle.resolve tok mv]) := by
        simp [stepAi, handleWorkerMessage, hl]
      rw [hstep]
      intro i hi
      simp only [pendingIds, List.mem_map] at hi
      rcases hi with ⟨x, hx, rfl⟩
      exact h _ (List.mem_map_of_mem _ (removePending_subset _ _ x hx))
  | workerFault =>
    cases hw : st.workerAlive with
    | true =>
      have hstep : stepAi st AiEvent.workerFault
          = (⟨false, 1, [], st.nextToken⟩,
             st.pending.map (fun e => AiSettle.reject e.2)) := by
        simp [stepAi, handleWorkerError, terminateAiWorker, hw]
      rw [hstep]
      intro i hi
      simp [pendingIds] at hi
    | false =>
      have hstep : stepAi st AiEvent.workerFault
          = ({ st with pending := [] },
             st.pending.map (fun e => AiSettle.reject e.2)) := by
        simp [stepAi, handleWorkerError, terminateAiWorker, hw]
      rw [hstep]
      intro i hi
      simp [pendingIds] at hi
  | terminate =>
    cases hw : st.workerAlive with
    | true =>
      have hstep : stepAi st AiEvent.terminate
          = (⟨false, 1, [], st.nextToken⟩,
             st.pending.map (fun e => AiSettle.reject e.2)) := by
        simp [stepAi, terminateAiWorker, hw]
      rw [hstep]
      intro i hi
      simp [pendingIds] at hi
    | false =>
      have hstep : stepAi st AiEvent.terminate = (st, []) := by
        simp [stepAi, terminateAiWorker, hw]
      rw [hstep]
      exact h

/-- C9 counterexample: compute, terminate, compute allocates the request
ids 1 and then 1 again — terminateAiWorker resets the counter, so a newly
allocated id is not strictly greater than every previously allocated id. -/
theorem c9_counterexample :
    runAllocLog initialAiState
        [AiEvent.compute false, AiEvent.terminate, AiEvent.compute false]
      = [1, 1] ∧
    ¬ StrictlyIncreasing (runAllocLog initialAiState
        [AiEvent.compute false, AiEvent.terminate, AiEvent.compute false]) := by
  constructor
  · rfl
  · intro hcon
    have h11 : StrictlyIncreasing [1, 1] := hcon
    have := List.chain'_cons.mp h11
    exact absurd this.1 (lt_irrefl 1)

/-- C9 amended: every pending id stays below the allocation counter (an
invariant every facade event preserves, holding initially), so each
computeBestMove allocates the current counter value — an id never equal to
one still outstanding in the pending table — and increments the counter,
making ids strictly increase between terminations; terminateAiWorker on a
live worker resets the counter to 1, so ids may repeat afterwards. -/
theorem c9_amended_monotonic_between_terminations :
    (∀ (st : AiState) (e : AiEvent), IdBound st → IdBound (stepAi st e).1) ∧
    (∀ (st : AiState) (sf : Bool), IdBound st →
      runAllocLog st [AiEvent.compute sf] = [st.nextRequestId] ∧
      st.nextRequestId ∉ pendingIds st ∧
      (stepAi st (AiEvent.compute sf)).1.nextRequestId = st.nextRequestId + 1) ∧
    (∀ st : AiState, st.workerAlive = true →
      (stepAi st AiEvent.terminate).1.nextRequestId = 1) ∧
    IdBound initialAiState := by
  refine ⟨fun st e h => stepAi_idBound st e h, ?_, ?_, ?_⟩
  · intro st sf h
    refine ⟨by simp [runAllocLog, allocOf], ?_, by cases sf <;> rfl⟩
    intro hmem
    exact absurd (h _ hmem) (lt_irrefl _)
  · intro st hw
    simp [stepAi, terminateAiWorker, hw]
  · intro i hi
    simp [initialAiState, pendingIds] at hi

/-- Witness for C9 amended: on a concrete state with two pending requests
the invariant holds, compute allocates the counter value 3 (not pending),
increments to 4, and terminate resets the counter to 1. -/
theorem c9_witness :
    IdBound (⟨true, 3, [(1, 0), (2, 1)], 2⟩ : AiState) ∧
    (runAllocLog ⟨true, 3, [(1, 0), (2, 1)], 2⟩ [AiEvent.compute false] = [3] ∧
     3 ∉ pendingIds ⟨true, 3, [(1, 0), (2, 1)], 2⟩ ∧
     (stepAi ⟨true, 3, [(1, 0), (2, 1)], 2⟩
        (AiEvent.compute false)).1.nextRequestId = 3 + 1) ∧
    (stepAi ⟨true, 3, [(1, 0), (2, 1)], 2⟩ AiEvent.terminate).1.nextRequestId = 1 :=
  ⟨by unfold IdBound; decide,
   c9_amended_monotonic_between_terminations.2.1 ⟨true, 3, [(1, 0), (2, 1)], 2⟩
     false (by unfold IdBound; decide),
   c9_amended_monotonic_between_terminations.2.2.1 ⟨true, 3, [(1, 0), (2, 1)], 2⟩ rfl⟩

theorem requestAiMoveComplete_taskId {σ : Type} (E : StoreEngine σ)
    (st : StoreState σ) (task : Nat) (r : Except String (Option ChessMove)) :
    (requestAiMoveComplete E st task r).aiTaskId = st.aiTaskId := by
  cases r with
  | ok mv =>
    simp only [requestAiMoveComplete]
    split
    · rfl
    · split
      · rfl
      · split
        · rfl
        · rfl
  | error e =>
    simp only [requestAiMoveComplete]
    split
    · rfl
    · rfl

theorem applyStoreOp_taskId_le {σ : Type} (E : StoreEngine σ)
    (st : StoreState σ) (op : StoreOp) :
    st.aiTaskId ≤ (applyStoreOp E st op).aiTaskId := by
  cases op with
  | cancel => exact Nat.le_succ _
  | startOther => exact Nat.le_succ _
  | completeOther task r =>
    rw [applyStoreOp, requestAiMoveComplete_taskId]

theorem applyStoreOps_taskId_le {σ : Type} (E : StoreEngine σ)
    (ops : List StoreOp) :
    ∀ st : StoreState σ, st.aiTaskId ≤ (applyStoreOps E st ops).aiTaskId := by
  induction ops with
  | nil => intro st; exact le_refl _
  | cons op rest ih =>
    intro st
    exact le_trans (applyStoreOp_taskId_le E st op) (ih _)

theorem applyStoreOps_advances {σ : Type} (E : StoreEngine σ)
    (ops : List StoreOp) :
    ∀ st : StoreState σ, (∃ op ∈ ops, advancesTask op = true) →
      st.aiTaskId < (applyStoreOps E st ops).aiTaskId := by
  induction ops with
  | nil =>
    intro st h
    rcases h with ⟨op, hmem, _⟩
    cases hmem
  | cons op rest ih =>
    intro st h
    rcases h with ⟨op', hmem, hadv⟩
    rcases List.mem_cons.mp hmem with rfl | hmem'
    · cases op' with
      | cancel =>
        show st.aiTaskId
          < (applyStoreOps E (applyStoreOp E st StoreOp.cancel) rest).aiTaskId
        exact lt_of_lt_of_le (Nat.lt_succ_self _)
          (applyStoreOps_taskId_le E rest (applyStoreOp E st StoreOp.cancel))
      | startOther =>
        show st.aiTaskId
          < (applyStoreOps E (applyStoreOp E st StoreOp.startOther) rest).aiTaskId
        exact lt_of_lt_of_le (Nat.lt_succ_self _)
          (applyStoreOps_taskId_le E rest (applyStoreOp E st StoreOp.startOther))
      | completeOther task r => cases hadv
    · show st.aiTaskId < (applyStoreOps E (applyStoreOp E st op) rest).aiTaskId
      exact lt_of_le_of_lt (applyStoreOp_taskId_le E st op) (ih _ ⟨op', hmem', hadv⟩)

/-- C10: if the cancellation counter is advanced (by cancelAiComputation
or another requestAiMove) after an invocation captures its task id and
before its computeBestMove promise settles, the completion changes no
caller-visible state at all: the move is never applied, lastMove and the
board are untouched, and the stale result — success or failure — is
silently discarded. -/
theorem c10_stale_result_not_applied {σ : Type} (E : StoreEngine σ)
    (st0 : StoreState σ) (ops : List StoreOp)
    (r : Except String (Option ChessMove))
    (hadv : ∃ op ∈ ops, advancesTask op = true) :
    requestAiMoveComplete E (applyStoreOps E (requestAiMoveStart st0).1 ops)
        (requestAiMoveStart st0).2 r
      = applyStoreOps E (requestAiMoveStart st0).1 ops := by
  have hlt : (requestAiMoveStart st0).2
      < (applyStoreOps E (requestAiMoveStart st0).1 ops).aiTaskId :=
    applyStoreOps_advances E ops (requestAiMoveStart st0).1 hadv
  have hne : (applyStoreOps E (requestAiMoveStart st0).1 ops).aiTaskId
      ≠ (requestAiMoveStart st0).2 := ne_of_gt hlt
  cases r with
  | ok mv => simp [requestAiMoveComplete, hne]
  | error e => simp [requestAiMoveComplete, hne]

/-- Witness for C10: a reset between the start of a request and the
arrival of its move leaves the store exactly as the reset left it. -/
theorem c10_witness :
    (∃ op ∈ [StoreOp.cancel], advancesTask op = true) ∧
    requestAiMoveComplete unitEngine
        (applyStoreOps unitEngine
          (requestAiMoveStart ⟨0, false, (), none, []⟩).1 [StoreOp.cancel])
        (requestAiMoveStart ⟨0, false, (), none, []⟩).2 (Except.ok (some mvA))
      = applyStoreOps unitEngine
          (requestAiMoveStart ⟨0, false, (), none, []⟩).1 [StoreOp.cancel] :=
  ⟨⟨StoreOp.cancel, List.mem_singleton.mpr rfl, rfl⟩,
   c10_stale_result_not_applied unitEngine ⟨0, false, (), none, []⟩
     [StoreOp.cancel] (Except.ok (some mvA))
     ⟨StoreOp.cancel, List.mem_singleton.mpr rfl, rfl⟩⟩

end ChessAI
